import Mathlib

/-!
Verification of the lexical scanner in `src/main.rs` (a Lox-style tokenizer).

The Rust scanner is shallowly embedded: the `Lexer` struct becomes a Lean
structure (with an extra `errs` field modelling the ordered sequence of
diagnostic lines printed to stderr by `eprintln!`), the character-consuming
loops of the sub-scanners become structurally recursive functions over the
suffix `string.drop index`, and the `'main_lex` retry loop of `read_token`
becomes a well-founded recursion on the remaining input.  The `f64` literal
values are modelled as exact rationals.
-/

set_option linter.unusedVariables false

/-- The token variants of the Rust `enum Token`.  The Rust constructor
`Token::String` is rendered `Token.Str` because `String` would collide with
the Lean `String` type inside the declaration; `Number` carries the parsed
value (modelled as an exact rational, see `parseF64?`) and the original
lexeme, exactly like `Token::Number(f64, String)`. -/
inductive Token where
  | EOF
  | LParen
  | RParen
  | LBrace
  | RBrace
  | Var
  | Ident (s : String)
  | Str (s : String)
  | Semicolon
  | Star
  | Dot
  | Comma
  | Plus
  | Minus
  | Equal
  | EqualEqual
  | Bang
  | BangEqual
  | Less
  | LessEqual
  | Greater
  | GreaterEqual
  | Slash
  | Number (v : ℚ) (lex : String)
  | And
  | Class
  | Else
  | False
  | For
  | Fun
  | If
  | Nil
  | Or
  | Print
  | Return
  | Super
  | This
  | True
  | While
deriving DecidableEq

/-- The static `KEYWORDS` table (`phf_map!` in the source): exact spelling to
reserved-word token. -/
def KEYWORDS : List (String × Token) :=
  [("and", Token.And), ("class", Token.Class), ("else", Token.Else),
   ("false", Token.False), ("for", Token.For), ("fun", Token.Fun),
   ("if", Token.If), ("nil", Token.Nil), ("or", Token.Or),
   ("print", Token.Print), ("return", Token.Return), ("super", Token.Super),
   ("this", Token.This), ("true", Token.True), ("var", Token.Var),
   ("while", Token.While)]

/-- The lookup `KEYWORDS.get(&s)`: exact, case-sensitive lookup in the keyword table. -/
def keywordLookup (s : String) : Option Token :=
  (KEYWORDS.find? (fun p => p.1 == s)).map (fun p => p.2)

/-- Decimal digits of a digit run, most significant first (helper for the
model of Rust's `f64` parsing). -/
def digitsToNat (ds : List Char) : ℕ :=
  ds.foldl (fun a c => 10 * a + (c.toNat - 48)) 0

/-- Modelled from the spec: the scanner calls Rust's standard-library
`str::parse::<f64>()` (external to this repository) on number lexemes.  We
model the fragment of that parser relevant to scanner-producible lexemes:
an unsigned decimal `digit+ ('.' digit*)?` or `'.' digit+` parses to its
exact decimal value (as a rational); anything else (in particular the empty
string) fails.  Exponents, signs and non-finite spellings never occur in
scanner lexemes and are omitted. -/
def parseF64? (str : String) : Option ℚ :=
  let cs := str.data
  let intPart := cs.takeWhile Char.isDigit
  let rest := cs.dropWhile Char.isDigit
  match rest with
  | [] => if intPart.isEmpty then none else some ((digitsToNat intPart : ℚ))
  | '.' :: frac =>
    if (intPart.isEmpty && frac.isEmpty) || !(frac.all Char.isDigit) then none
    else some ((digitsToNat intPart : ℚ) + (digitsToNat frac : ℚ) / (10 : ℚ) ^ frac.length)
  | _ :: _ => none

/-- Fraction digits of `rem / den` (no trailing zeros); fuel-driven long
division, used by the model of Rust's float `Debug` formatting. -/
def fracDigits : ℕ → ℕ → ℕ → List Char
  | 0, _, _ => []
  | _ + 1, _, 0 => []
  | fuel + 1, den, rem =>
    Char.ofNat (48 + rem * 10 / den) :: fracDigits fuel den (rem * 10 % den)

/-- Modelled from the spec: Rust's `{:?}` (`Debug`) formatting of an `f64`
(external to this repository), on the exact nonnegative decimal values the
scanner produces: integral values print with a trailing `.0` (for example
`123.0`), other values print their finite decimal expansion with no
trailing zeros. -/
def fmtF64 (q : ℚ) : String :=
  if q.den = 1 then toString q.num ++ ".0"
  else toString (q.num / (q.den : ℤ)) ++ "." ++
    String.mk (fracDigits q.den q.den (q.num.toNat % q.den))

namespace Token

/-- The method `Token::token_type`. -/
def token_type : Token → String
  | .EOF => "EOF"
  | .LParen => "LEFT_PAREN"
  | .RParen => "RIGHT_PAREN"
  | .LBrace => "LEFT_BRACE"
  | .RBrace => "RIGHT_BRACE"
  | .Ident _ => "IDENTIFIER"
  | .Str _ => "STRING"
  | .Semicolon => "SEMICOLON"
  | .Star => "STAR"
  | .Dot => "DOT"
  | .Comma => "COMMA"
  | .Plus => "PLUS"
  | .Minus => "MINUS"
  | .Equal => "EQUAL"
  | .EqualEqual => "EQUAL_EQUAL"
  | .Bang => "BANG"
  | .BangEqual => "BANG_EQUAL"
  | .Less => "LESS"
  | .LessEqual => "LESS_EQUAL"
  | .Greater => "GREATER"
  | .GreaterEqual => "GREATER_EQUAL"
  | .Slash => "SLASH"
  | .Number _ _ => "NUMBER"
  | .And => "AND"
  | .Class => "CLASS"
  | .Else => "ELSE"
  | .False => "FALSE"
  | .For => "FOR"
  | .Fun => "FUN"
  | .If => "IF"
  | .Nil => "NIL"
  | .Or => "OR"
  | .Print => "PRINT"
  | .Return => "RETURN"
  | .Super => "SUPER"
  | .This => "THIS"
  | .True => "TRUE"
  | .Var => "VAR"
  | .While => "WHILE"

/-- The method `Token::lexeme`. -/
def lexeme : Token → String
  | .EOF => ""
  | .LParen => "("
  | .RParen => ")"
  | .LBrace => "\x7b"
  | .RBrace => "\x7d"
  | .Ident s => s
  | .Str s => "\"" ++ s ++ "\""
  | .Semicolon => ";"
  | .Star => "*"
  | .Dot => "."
  | .Comma => ","
  | .Plus => "+"
  | .Minus => "-"
  | .Equal => "="
  | .EqualEqual => "=="
  | .Bang => "!"
  | .BangEqual => "!="
  | .Less => "<"
  | .LessEqual => "<="
  | .Greater => ">"
  | .GreaterEqual => ">="
  | .Slash => "/"
  | .Number _ s => s
  | .And => "and"
  | .Class => "class"
  | .Else => "else"
  | .False => "false"
  | .For => "for"
  | .Fun => "fun"
  | .If => "if"
  | .Nil => "nil"
  | .Or => "or"
  | .Print => "print"
  | .Return => "return"
  | .Super => "super"
  | .This => "this"
  | .True => "true"
  | .Var => "var"
  | .While => "while"

/-- The method `Token::literal`: `null` for everything except strings (unwrapped body)
and numbers (`{:?}`-formatted value). -/
def literal : Token → String
  | .Str s => s
  | .Number n _ => fmtF64 n
  | _ => "null"

/-- The `Display` impl: `"{} {} {}"` of type, lexeme and literal. -/
def display (t : Token) : String :=
  t.token_type ++ " " ++ t.lexeme ++ " " ++ t.literal

end Token

/-- The `Lexer` struct.  The extra `errs` field records, in order, the
diagnostic lines the Rust code prints to stderr with `eprintln!`; it is the
observable error channel and not part of the Rust struct itself. -/
structure Lexer where
  string : List Char
  index : ℕ
  line : ℕ
  column : ℕ
  error : Bool
  done : Bool
  errs : List String
deriving DecidableEq

/-- The constructor `Lexer::new`. -/
def Lexer.new (s : String) : Lexer :=
  { string := s.data, index := 0, line := 1, column := 0,
    error := false, done := false, errs := [] }

/-- The diagnostic line of `eprintln!("[line {}] Error: Unterminated string.", line)`. -/
def untermMsg (line : ℕ) : String :=
  "[line " ++ toString line ++ "] Error: Unterminated string."

/-- The diagnostic line of `eprintln!("[line {}] Error: Unexpected character: {}", line, c)`
(note: no trailing period in the source format string). -/
def unexpMsg (line : ℕ) (c : Char) : String :=
  "[line " ++ toString line ++ "] Error: Unexpected character: " ++ String.singleton c

/-- The predicate `char::is_whitespace` (Unicode `White_Space`), modelled exactly (external
standard-library predicate). -/
def isRustWhitespace (c : Char) : Bool :=
  c = ' ' || c = '\t' || c = '\n' || c = '\r' || c = '\x0b' || c = '\x0c' ||
  c.val = 0x85 || c.val = 0xa0 || c.val = 0x1680 ||
  (0x2000 ≤ c.val && c.val ≤ 0x200a) ||
  c.val = 0x2028 || c.val = 0x2029 || c.val = 0x202f || c.val = 0x205f ||
  c.val = 0x3000

/-- The character class `'a'..='z' | 'A'..='Z' | '0'..='9' | '_'` of
`read_ident`'s loop. -/
def isIdentChar (c : Char) : Bool :=
  c.isAlpha || c.isDigit || c = '_'

/-- The character class `'a'..='z' | 'A'..='Z' | '_'` of the identifier
dispatch arm of `read_token`. -/
def isIdentStart (c : Char) : Bool :=
  c.isAlpha || c = '_'

/-- Number of characters `read_number`'s loop consumes from the given suffix
of the source: digits, plus at most one `.` (tracked by `hadDot`). -/
def numLen : List Char → Bool → ℕ
  | [], _ => 0
  | c :: rest, hadDot =>
    if c.isDigit then 1 + numLen rest hadDot
    else if c = '.' && !hadDot then 1 + numLen rest true
    else 0

/-- The sub-scanner `Lexer::read_number`, acting on the character buffer and the cursor
`start`; returns the optional lexeme and the final cursor.  The out-of-range
direct indexing `self.string[self.index - 1]` cannot occur in Rust (the loop
consumed at least one in-range character when it is reached) and is modelled
with the total `getElem?`. -/
def read_number (s : List Char) (start : ℕ) : Option String × ℕ :=
  let stop := start + numLen (s.drop start) false
  if stop = start then (none, stop)
  else
    let stop2 := if s[stop - 1]? = some '.' then stop - 1 else stop
    (some (String.mk ((s.drop start).take (stop2 - start))), stop2)

/-- Number of characters `read_ident`'s loop consumes from the given suffix. -/
def identLen : List Char → ℕ
  | [] => 0
  | c :: rest => if isIdentChar c then 1 + identLen rest else 0

/-- The sub-scanner `Lexer::read_ident` (including its dead trailing-`.` back-off, copied in
the source from `read_number`). -/
def read_ident (s : List Char) (start : ℕ) : Option String × ℕ :=
  let stop := start + identLen (s.drop start)
  if stop = start then (none, stop)
  else
    let stop2 := if s[stop - 1]? = some '.' then stop - 1 else stop
    (some (String.mk ((s.drop start).take (stop2 - start))), stop2)

/-- Number of characters the `//`-comment loop
`while let Some(c) = self.read_char() { if c == '\n' break }` advances the
cursor by, on the given suffix: through a consumed `'\n'`, or all remaining
characters plus one for the failing `read_char` at end of input. -/
def commentLen : List Char → ℕ
  | [] => 1
  | c :: rest => if c = '\n' then 1 else 1 + commentLen rest

/-- Number of characters the string-literal loop advances the cursor by on
the given suffix (through the consumed closing quote), or `none` when end of
input is reached first (the Rust cursor then stands one past the end). -/
def stringScanLen : List Char → Option ℕ
  | [] => none
  | c :: rest =>
    if c = '"' then some 1 else (stringScanLen rest).map (fun k => 1 + k)

/-- One conceptual contradiction helper: `numLen` is positive on a suffix
that starts with a digit (used to discharge the dead `None` branch of the
digit dispatch arm, where the Rust code would loop forever). -/
def numLenPosOfDigit : ∀ (s : List Char) (i : ℕ) (c : Char),
    s[i]? = some c → c.isDigit = true → numLen (s.drop i) false ≠ 0 := by
  intro s i c h hd
  have hlt : i < s.length := by
    by_contra hge
    simp [List.getElem?_eq_none (Nat.le_of_not_lt hge)] at h
  have hdrop : s.drop i = c :: s.drop (i + 1) := by
    rw [List.drop_eq_getElem_cons hlt]
    have : s[i] = c := by
      have := List.getElem?_eq_getElem hlt
      rw [this] at h
      exact Option.some_injective _ h
    rw [this]
  rw [hdrop]
  simp [numLen, hd]

/-- As `numLenPosOfDigit`, for `identLen` at an identifier-start character. -/
def identLenPosOfStart : ∀ (s : List Char) (i : ℕ) (c : Char),
    s[i]? = some c → isIdentStart c = true → identLen (s.drop i) ≠ 0 := by
  intro s i c h hd
  have hlt : i < s.length := by
    by_contra hge
    simp [List.getElem?_eq_none (Nat.le_of_not_lt hge)] at h
  have hdrop : s.drop i = c :: s.drop (i + 1) := by
    rw [List.drop_eq_getElem_cons hlt]
    have : s[i] = c := by
      have := List.getElem?_eq_getElem hlt
      rw [this] at h
      exact Option.some_injective _ h
    rw [this]
  rw [hdrop]
  have : isIdentChar c = true := by
    simp only [isIdentChar, isIdentStart] at *
    rcases Bool.or_eq_true_iff.mp hd with h1 | h1 <;> simp [h1]
  simp [identLen, this]

/-- The outcome of one iteration of the `'main_lex` loop of
`Lexer::read_token`: either a `return` (`tok`: returned value plus the
mutated state) or a `continue` (`retry`: the mutated state the loop
re-enters with). -/
inductive Step where
  | tok (r : Except String Token) (l2 : Lexer)
  | retry (l2 : Lexer)

/-- The mutated scanner state carried by either outcome of a loop iteration. -/
def Step.state : Step → Lexer
  | .tok _ l2 => l2
  | .retry l2 => l2

/-- The digit dispatch arm of `read_token` applied to the result of
`read_number`: `Ok(Token::Number(num.parse()?, num))` on a lexeme (the `Err`
of a failed parse models the `?` operator), `continue` on `None`. -/
def numberArm (l1 : Lexer) : Option String × ℕ → Step
  | (some num, j) =>
    match parseF64? num with
    | some v => .tok (Except.ok (Token.Number v num)) { l1 with index := j }
    | none => .tok (Except.error ("invalid float literal")) { l1 with index := j }
  | (none, j) => .retry { l1 with index := j }

/-- The identifier dispatch arm of `read_token` applied to the result of
`read_ident`: keyword-table hit, plain identifier, or `continue` on `None`. -/
def identArm (l1 : Lexer) : Option String × ℕ → Step
  | (some s, j) =>
    match keywordLookup s with
    | some kw => .tok (Except.ok kw) { l1 with index := j }
    | none => .tok (Except.ok (Token.Ident s)) { l1 with index := j }
  | (none, j) => .retry { l1 with index := j }

/-- The body of one `'main_lex` iteration of `Lexer::read_token`, arm for
arm as in the source. -/
def lexStep (l : Lexer) : Step :=
  match l.string[l.index]? with
  | none => .tok (Except.ok Token.EOF) { l with index := l.index + 1, done := true }
  | some c =>
    let l1 : Lexer := { l with index := l.index + 1, column := l.column + 1 }
    if c = '(' then .tok (Except.ok Token.LParen) l1
    else if c = ')' then .tok (Except.ok Token.RParen) l1
    else if c = '\x7b' then .tok (Except.ok Token.LBrace) l1
    else if c = '\x7d' then .tok (Except.ok Token.RBrace) l1
    else if c = ';' then .tok (Except.ok Token.Semicolon) l1
    else if c = '*' then .tok (Except.ok Token.Star) l1
    else if c = '.' then .tok (Except.ok Token.Dot) l1
    else if c = ',' then .tok (Except.ok Token.Comma) l1
    else if c = '+' then .tok (Except.ok Token.Plus) l1
    else if c = '-' then .tok (Except.ok Token.Minus) l1
    else if c = '=' then
      if l1.string[l1.index]? = some '=' then
        .tok (Except.ok Token.EqualEqual) { l1 with index := l1.index + 1 }
      else .tok (Except.ok Token.Equal) l1
    else if c = '!' then
      if l1.string[l1.index]? = some '=' then
        .tok (Except.ok Token.BangEqual) { l1 with index := l1.index + 1 }
      else .tok (Except.ok Token.Bang) l1
    else if c = '<' then
      if l1.string[l1.index]? = some '=' then
        .tok (Except.ok Token.LessEqual) { l1 with index := l1.index + 1 }
      else .tok (Except.ok Token.Less) l1
    else if c = '>' then
      if l1.string[l1.index]? = some '=' then
        .tok (Except.ok Token.GreaterEqual) { l1 with index := l1.index + 1 }
      else .tok (Except.ok Token.Greater) l1
    else if c = '/' then
      if l1.string[l1.index]? = some '/' then
        .retry { l1 with
          index := l1.index + commentLen (l1.string.drop l1.index),
          line := l1.line + 1 }
      else .tok (Except.ok Token.Slash) l1
    else if c = '"' then
      match stringScanLen (l1.string.drop l1.index) with
      | some k =>
        .tok (Except.ok (Token.Str (String.mk ((l1.string.drop l1.index).take (k - 1)))))
          { l1 with index := l1.index + k }
      | none =>
        .retry { l1 with
          index := l1.string.length + 1,
          error := true,
          errs := l1.errs ++ [untermMsg l1.line] }
    else if c.isDigit then
      numberArm l1 (read_number l1.string (l1.index - 1))
    else if isIdentStart c then
      identArm l1 (read_ident l1.string (l1.index - 1))
    else if c = '\n' then
      .retry { l1 with line := l1.line + 1, column := 0 }
    else if isRustWhitespace c then
      .retry l1
    else
      .retry { l1 with error := true, errs := l1.errs ++ [unexpMsg l1.line c] }

/-- Index is in bounds whenever `getElem?` returns a value. -/
def indexLtOfSome : ∀ {s : List Char} {i : ℕ} {c : Char},
    s[i]? = some c → i < s.length := by
  intro s i c h
  by_contra hge
  simp [List.getElem?_eq_none (Nat.le_of_not_lt hge)] at h

/-- Exhaustive case analysis for `lexStep`, one hypothesis per reachable arm
of the source `match`, with the cursor arithmetic spelled out.  The two
unreachable `None` results of `read_number`/`read_ident` (at their call
sites the current character starts a run, so the sub-scanner consumes at
least one character; the Rust loop would re-read the same character forever
there) are discharged inside the proof and expose no case. -/
def lexStep_elim (P : Lexer → Step → Prop)
    (hEOF : ∀ l : Lexer, l.string[l.index]? = none →
      P l (.tok (Except.ok Token.EOF) { l with index := l.index + 1, done := true }))
    (hLParen : ∀ l : Lexer, l.string[l.index]? = some '(' →
      P l (.tok (Except.ok Token.LParen) { l with index := l.index + 1, column := l.column + 1 }))
    (hRParen : ∀ l : Lexer, l.string[l.index]? = some ')' →
      P l (.tok (Except.ok Token.RParen) { l with index := l.index + 1, column := l.column + 1 }))
    (hLBrace : ∀ l : Lexer, l.string[l.index]? = some '\x7b' →
      P l (.tok (Except.ok Token.LBrace) { l with index := l.index + 1, column := l.column + 1 }))
    (hRBrace : ∀ l : Lexer, l.string[l.index]? = some '\x7d' →
      P l (.tok (Except.ok Token.RBrace) { l with index := l.index + 1, column := l.column + 1 }))
    (hSemicolon : ∀ l : Lexer, l.string[l.index]? = some ';' →
      P l (.tok (Except.ok Token.Semicolon) { l with index := l.index + 1, column := l.column + 1 }))
    (hStar : ∀ l : Lexer, l.string[l.index]? = some '*' →
      P l (.tok (Except.ok Token.Star) { l with index := l.index + 1, column := l.column + 1 }))
    (hDot : ∀ l : Lexer, l.string[l.index]? = some '.' →
      P l (.tok (Except.ok Token.Dot) { l with index := l.index + 1, column := l.column + 1 }))
    (hComma : ∀ l : Lexer, l.string[l.index]? = some ',' →
      P l (.tok (Except.ok Token.Comma) { l with index := l.index + 1, column := l.column + 1 }))
    (hPlus : ∀ l : Lexer, l.string[l.index]? = some '+' →
      P l (.tok (Except.ok Token.Plus) { l with index := l.index + 1, column := l.column + 1 }))
    (hMinus : ∀ l : Lexer, l.string[l.index]? = some '-' →
      P l (.tok (Except.ok Token.Minus) { l with index := l.index + 1, column := l.column + 1 }))
    (hEqEq : ∀ l : Lexer, l.string[l.index]? = some '=' → l.string[l.index + 1]? = some '=' →
      P l (.tok (Except.ok Token.EqualEqual)
        { l with index := l.index + 1 + 1, column := l.column + 1 }))
    (hEq : ∀ l : Lexer, l.string[l.index]? = some '=' → ¬l.string[l.index + 1]? = some '=' →
      P l (.tok (Except.ok Token.Equal) { l with index := l.index + 1, column := l.column + 1 }))
    (hBangEq : ∀ l : Lexer, l.string[l.index]? = some '!' → l.string[l.index + 1]? = some '=' →
      P l (.tok (Except.ok Token.BangEqual)
        { l with index := l.index + 1 + 1, column := l.column + 1 }))
    (hBang : ∀ l : Lexer, l.string[l.index]? = some '!' → ¬l.string[l.index + 1]? = some '=' →
      P l (.tok (Except.ok Token.Bang) { l with index := l.index + 1, column := l.column + 1 }))
    (hLessEq : ∀ l : Lexer, l.string[l.index]? = some '<' → l.string[l.index + 1]? = some '=' →
      P l (.tok (Except.ok Token.LessEqual)
        { l with index := l.index + 1 + 1, column := l.column + 1 }))
    (hLess : ∀ l : Lexer, l.string[l.index]? = some '<' → ¬l.string[l.index + 1]? = some '=' →
      P l (.tok (Except.ok Token.Less) { l with index := l.index + 1, column := l.column + 1 }))
    (hGreaterEq : ∀ l : Lexer, l.string[l.index]? = some '>' → l.string[l.index + 1]? = some '=' →
      P l (.tok (Except.ok Token.GreaterEqual)
        { l with index := l.index + 1 + 1, column := l.column + 1 }))
    (hGreater : ∀ l : Lexer, l.string[l.index]? = some '>' → ¬l.string[l.index + 1]? = some '=' →
      P l (.tok (Except.ok Token.Greater) { l with index := l.index + 1, column := l.column + 1 }))
    (hComment : ∀ l : Lexer, l.string[l.index]? = some '/' → l.string[l.index + 1]? = some '/' →
      P l (.retry { l with
        index := l.index + 1 + commentLen (l.string.drop (l.index + 1)),
        line := l.line + 1, column := l.column + 1 }))
    (hSlash : ∀ l : Lexer, l.string[l.index]? = some '/' → ¬l.string[l.index + 1]? = some '/' →
      P l (.tok (Except.ok Token.Slash) { l with index := l.index + 1, column := l.column + 1 }))
    (hString : ∀ (l : Lexer) (k : ℕ), l.string[l.index]? = some '\"' →
      stringScanLen (l.string.drop (l.index + 1)) = some k →
      P l (.tok (Except.ok (Token.Str (String.mk ((l.string.drop (l.index + 1)).take (k - 1)))))
        { l with index := l.index + 1 + k, column := l.column + 1 }))
    (hStringUnterm : ∀ l : Lexer, l.string[l.index]? = some '\"' →
      stringScanLen (l.string.drop (l.index + 1)) = none →
      P l (.retry { l with
        index := l.string.length + 1, column := l.column + 1,
        error := true, errs := l.errs ++ [untermMsg l.line] }))
    (hNumber : ∀ (l : Lexer) (c : Char) (num : String) (j : ℕ) (v : ℚ),
      l.string[l.index]? = some c → c.isDigit = true →
      read_number l.string l.index = (some num, j) → parseF64? num = some v →
      P l (.tok (Except.ok (Token.Number v num))
        { l with index := j, column := l.column + 1 }))
    (hNumberErr : ∀ (l : Lexer) (c : Char) (num : String) (j : ℕ),
      l.string[l.index]? = some c → c.isDigit = true →
      read_number l.string l.index = (some num, j) → parseF64? num = none →
      P l (.tok (Except.error ("invalid float literal"))
        { l with index := j, column := l.column + 1 }))
    (hKeyword : ∀ (l : Lexer) (c : Char) (s : String) (j : ℕ) (kw : Token),
      l.string[l.index]? = some c → c.isDigit = false → isIdentStart c = true →
      read_ident l.string l.index = (some s, j) → keywordLookup s = some kw →
      P l (.tok (Except.ok kw) { l with index := j, column := l.column + 1 }))
    (hIdent : ∀ (l : Lexer) (c : Char) (s : String) (j : ℕ),
      l.string[l.index]? = some c → c.isDigit = false → isIdentStart c = true →
      read_ident l.string l.index = (some s, j) → keywordLookup s = none →
      P l (.tok (Except.ok (Token.Ident s)) { l with index := j, column := l.column + 1 }))
    (hNewline : ∀ l : Lexer, l.string[l.index]? = some '\n' →
      P l (.retry { l with index := l.index + 1, line := l.line + 1, column := 0 }))
    (hWhitespace : ∀ (l : Lexer) (c : Char), l.string[l.index]? = some c →
      isRustWhitespace c = true → ¬c = '\n' →
      P l (.retry { l with index := l.index + 1, column := l.column + 1 }))
    (hUnexpected : ∀ (l : Lexer) (c : Char), l.string[l.index]? = some c →
      ¬c = '(' → ¬c = ')' → ¬c = '\x7b' → ¬c = '\x7d' → ¬c = ';' → ¬c = '*' → ¬c = '.' →
      ¬c = ',' → ¬c = '+' → ¬c = '-' → ¬c = '=' → ¬c = '!' → ¬c = '<' → ¬c = '>' →
      ¬c = '/' → ¬c = '\"' → c.isDigit = false → isIdentStart c = false →
      ¬c = '\n' → isRustWhitespace c = false →
      P l (.retry { l with
        index := l.index + 1, column := l.column + 1,
        error := true, errs := l.errs ++ [unexpMsg l.line c] })) :
    ∀ l : Lexer, P l (lexStep l) := by
  intro l
  simp only [lexStep]
  rcases hget : l.string[l.index]? with _ | c
  · exact hEOF l hget
  · simp only []
    by_cases e1 : c = '('
    · subst e1; rw [if_pos rfl]; exact hLParen l hget
    rw [if_neg e1]
    by_cases e2 : c = ')'
    · subst e2; rw [if_pos rfl]; exact hRParen l hget
    rw [if_neg e2]
    by_cases e3 : c = '\x7b'
    · subst e3; rw [if_pos rfl]; exact hLBrace l hget
    rw [if_neg e3]
    by_cases e4 : c = '\x7d'
    · subst e4; rw [if_pos rfl]; exact hRBrace l hget
    rw [if_neg e4]
    by_cases e5 : c = ';'
    · subst e5; rw [if_pos rfl]; exact hSemicolon l hget
    rw [if_neg e5]
    by_cases e6 : c = '*'
    · subst e6; rw [if_pos rfl]; exact hStar l hget
    rw [if_neg e6]
    by_cases e7 : c = '.'
    · subst e7; rw [if_pos rfl]; exact hDot l hget
    rw [if_neg e7]
    by_cases e8 : c = ','
    · subst e8; rw [if_pos rfl]; exact hComma l hget
    rw [if_neg e8]
    by_cases e9 : c = '+'
    · subst e9; rw [if_pos rfl]; exact hPlus l hget
    rw [if_neg e9]
    by_cases e10 : c = '-'
    · subst e10; rw [if_pos rfl]; exact hMinus l hget
    rw [if_neg e10]
    by_cases e11 : c = '='
    · subst e11; rw [if_pos rfl]
      by_cases p1 : l.string[l.index + 1]? = some '='
      · rw [if_pos p1]; exact hEqEq l hget p1
      · rw [if_neg p1]; exact hEq l hget p1
    rw [if_neg e11]
    by_cases e12 : c = '!'
    · subst e12; rw [if_pos rfl]
      by_cases p1 : l.string[l.index + 1]? = some '='
      · rw [if_pos p1]; exact hBangEq l hget p1
      · rw [if_neg p1]; exact hBang l hget p1
    rw [if_neg e12]
    by_cases e13 : c = '<'
    · subst e13; rw [if_pos rfl]
      by_cases p1 : l.string[l.index + 1]? = some '='
      · rw [if_pos p1]; exact hLessEq l hget p1
      · rw [if_neg p1]; exact hLess l hget p1
    rw [if_neg e13]
    by_cases e14 : c = '>'
    · subst e14; rw [if_pos rfl]
      by_cases p1 : l.string[l.index + 1]? = some '='
      · rw [if_pos p1]; exact hGreaterEq l hget p1
      · rw [if_neg p1]; exact hGreater l hget p1
    rw [if_neg e14]
    by_cases e15 : c = '/'
    · subst e15; rw [if_pos rfl]
      by_cases p1 : l.string[l.index + 1]? = some '/'
      · rw [if_pos p1]; exact hComment l hget p1
      · rw [if_neg p1]; exact hSlash l hget p1
    rw [if_neg e15]
    by_cases e16 : c = '\"'
    · subst e16; rw [if_pos rfl]
      rcases hss : stringScanLen (l.string.drop (l.index + 1)) with _ | k
      · exact hStringUnterm l hget hss
      · exact hString l k hget hss
    rw [if_neg e16]
    by_cases e17 : c.isDigit = true
    · rw [if_pos e17]
      rw [show l.index + 1 - 1 = l.index from rfl]
      rcases hnum : read_number l.string l.index with ⟨_ | num, j⟩
      · exact absurd hnum (by
          have hpos := numLenPosOfDigit l.string l.index c hget e17
          simp only [read_number]
          intro hcontra
          split at hcontra
          · next heq => exact hpos (by omega)
          · simp at hcontra)
      · simp only [numberArm]
        rcases hp : parseF64? num with _ | v
        · exact hNumberErr l c num j hget e17 hnum hp
        · exact hNumber l c num j v hget e17 hnum hp
    rw [if_neg e17]
    by_cases e18 : isIdentStart c = true
    · rw [if_pos e18]
      rw [show l.index + 1 - 1 = l.index from rfl]
      rcases hid : read_ident l.string l.index with ⟨_ | s, j⟩
      · exact absurd hid (by
          have hpos := identLenPosOfStart l.string l.index c hget e18
          simp only [read_ident]
          intro hcontra
          split at hcontra
          · next heq => exact hpos (by omega)
          · simp at hcontra)
      · simp only [identArm]
        rcases hkw : keywordLookup s with _ | kw
        · exact hIdent l c s j hget (Bool.not_eq_true _ ▸ e17) e18 hid hkw
        · exact hKeyword l c s j kw hget (Bool.not_eq_true _ ▸ e17) e18 hid hkw
    rw [if_neg e18]
    by_cases e19 : c = '\n'
    · subst e19; rw [if_pos rfl]; exact hNewline l hget
    rw [if_neg e19]
    by_cases e20 : isRustWhitespace c = true
    · rw [if_pos e20]; exact hWhitespace l c hget e20 e19
    rw [if_neg e20]
    exact hUnexpected l c hget e1 e2 e3 e4 e5 e6 e7 e8 e9 e10 e11 e12 e13 e14 e15 e16
      (Bool.not_eq_true _ ▸ e17) (Bool.not_eq_true _ ▸ e18) e19 (Bool.not_eq_true _ ▸ e20)

/-- Every `retry` outcome advances the cursor and occurs strictly inside the
buffer (the termination argument of `readToken`). -/
def lexStepRetry : ∀ l l2 : Lexer, lexStep l = Step.retry l2 →
    l2.string = l.string ∧ l.index < l2.index ∧ l.index < l.string.length := by
  intro l l2
  refine lexStep_elim
    (fun l s => s = Step.retry l2 →
      l2.string = l.string ∧ l.index < l2.index ∧ l.index < l.string.length)
    ?_ ?_ ?_ ?_ ?_ ?_ ?_ ?_ ?_ ?_ ?_ ?_ ?_ ?_ ?_ ?_ ?_ ?_ ?_ ?_ ?_ ?_ ?_ ?_ ?_ ?_ ?_ ?_ ?_ ?_ l
  · intro l hget he; exact Step.noConfusion he
  · intro l hget he; exact Step.noConfusion he
  · intro l hget he; exact Step.noConfusion he
  · intro l hget he; exact Step.noConfusion he
  · intro l hget he; exact Step.noConfusion he
  · intro l hget he; exact Step.noConfusion he
  · intro l hget he; exact Step.noConfusion he
  · intro l hget he; exact Step.noConfusion he
  · intro l hget he; exact Step.noConfusion he
  · intro l hget he; exact Step.noConfusion he
  · intro l hget he; exact Step.noConfusion he
  · intro l hget hp he; exact Step.noConfusion he
  · intro l hget hp he; exact Step.noConfusion he
  · intro l hget hp he; exact Step.noConfusion he
  · intro l hget hp he; exact Step.noConfusion he
  · intro l hget hp he; exact Step.noConfusion he
  · intro l hget hp he; exact Step.noConfusion he
  · intro l hget hp he; exact Step.noConfusion he
  · intro l hget hp he; exact Step.noConfusion he
  · -- comment arm
    intro l hget hp he
    injection he with h0
    subst h0
    exact ⟨rfl, by show l.index < l.index + 1 + _; omega, indexLtOfSome hget⟩
  · intro l hget hp he; exact Step.noConfusion he
  · intro l k hget hss he; exact Step.noConfusion he
  · -- unterminated string arm
    intro l hget hss he
    injection he with h0
    subst h0
    have hlt := indexLtOfSome hget
    exact ⟨rfl, by show l.index < l.string.length + 1; omega, hlt⟩
  · intro l c num j v hget hdig hr hp he; exact Step.noConfusion he
  · intro l c num j hget hdig hr hp he; exact Step.noConfusion he
  · intro l c s j kw hget hdig hst hr hkw he; exact Step.noConfusion he
  · intro l c s j hget hdig hst hr hkw he; exact Step.noConfusion he
  · -- newline arm
    intro l hget he
    injection he with h0
    subst h0
    exact ⟨rfl, by show l.index < l.index + 1; omega, indexLtOfSome hget⟩
  · -- whitespace arm
    intro l c hget hw hn he
    injection he with h0
    subst h0
    exact ⟨rfl, by show l.index < l.index + 1; omega, indexLtOfSome hget⟩
  · -- unexpected-character arm
    intro l c hget h1 h2 h3 h4 h5 h6 h7 h8 h9 h10 h11 h12 h13 h14 h15 h16 h17 h18 h19 h20 he
    injection he with h0
    subst h0
    exact ⟨rfl, by show l.index < l.index + 1; omega, indexLtOfSome hget⟩

/-- The method `Lexer::read_token`: iterate `lexStep` until an arm returns. -/
def readToken (l : Lexer) : Except String Token × Lexer :=
  match h : lexStep l with
  | .tok r l2 => (r, l2)
  | .retry l2 => readToken l2
termination_by l.string.length + 1 - l.index
decreasing_by
  have h3 := lexStepRetry l l2 h
  have h4 : l2.string.length = l.string.length := by rw [h3.1]
  omega

/-- The `Iterator` impl: `if self.done { None } else { self.read_token().ok() }`. -/
def next (l : Lexer) : Option Token × Lexer :=
  if l.done then (none, l)
  else
    match readToken l with
    | (Except.ok t, l2) => (some t, l2)
    | (Except.error _, l2) => (none, l2)

/-- The caller's `for tok in &mut lexer` loop, fuelled; `runFuel_done` below
proves the fuel used by `runLexer` always suffices to exhaust the iterator. -/
def runFuel (n : ℕ) (l : Lexer) : List Token × Lexer :=
  if n = 0 then ([], l)
  else
    match next l with
    | (none, l2) => ([], l2)
    | (some t, l2) =>
      let r := runFuel (n - 1) l2
      (t :: r.1, r.2)

/-- Drive the iterator to exhaustion: all yielded tokens and the final state. -/
def runLexer (l : Lexer) : List Token × Lexer := runFuel (l.string.length + 2) l

/-- The token stream of a source text. -/
def tokens (s : String) : List Token := (runLexer (Lexer.new s)).1

/-- The scanner state after the iterator is exhausted. -/
def lexFinal (s : String) : Lexer := (runLexer (Lexer.new s)).2

/-- The stdout lines of the `tokenize` command: one `Display` line per token. -/
def outputLines (s : String) : List String := (tokens s).map Token.display

/-- Ghost observation for line tracking: each yielded token paired with the
scanner's `line` counter at the moment the token is yielded. -/
def runFuelL (n : ℕ) (l : Lexer) : List (Token × ℕ) :=
  if n = 0 then []
  else
    match next l with
    | (none, _) => []
    | (some t, l2) => (t, l2.line) :: runFuelL (n - 1) l2

/-- Each token of a source text paired with the line counter at its production. -/
def tokensWithLines (s : String) : List (Token × ℕ) :=
  runFuelL (s.data.length + 2) (Lexer.new s)

/-- The two diagnostic shapes the scanner can emit on stderr. -/
def diagShape (e : String) : Prop :=
  (∃ n, e = untermMsg n) ∨ (∃ n c, e = unexpMsg n c)

/-- Number of `'\n'` characters in positions `[i, j)` of the buffer
(truncated at the end of the buffer). -/
def countNL (s : List Char) (i j : ℕ) : ℕ :=
  ((s.drop i).take (j - i)).count '\n'

/-- Sources without `/` and without `"`: no comments and no string literals. -/
def noSlashQuote (s : List Char) : Prop := '/' ∉ s ∧ '\"' ∉ s

/-- Kernel-executable evaluation of the whole iterator loop, spending one
fuel unit per `lexStep`; `none` on fuel exhaustion.  `runE_runFuel` proves a
completed evaluation equals `runFuel` (and hence `runLexer`), so concrete
runs can be established by `decide`. -/
def runE : ℕ → Lexer → Option (List Token × Lexer)
  | 0, _ => none
  | f + 1, l =>
    if l.done then some ([], l)
    else
      match lexStep l with
      | .tok (Except.ok t) l2 =>
        match runE f l2 with
        | some (ts, lf) => some (t :: ts, lf)
        | none => none
      | .tok (Except.error _) l2 => some ([], l2)
      | .retry l2 => runE f l2

/-- Kernel-executable clone of `runFuelL` (see `runE`); bridged by
`runEL_runFuelL`. -/
def runEL : ℕ → Lexer → Option (List (Token × ℕ))
  | 0, _ => none
  | f + 1, l =>
    if l.done then some []
    else
      match lexStep l with
      | .tok (Except.ok t) l2 =>
        match runEL f l2 with
        | some ps => some ((t, l2.line) :: ps)
        | none => none
      | .tok (Except.error _) l2 => some []
      | .retry l2 => runEL f l2

theorem getElem?_some_lt {s : List Char} {i : ℕ} {c : Char} (h : s[i]? = some c) :
    i < s.length := by
  by_contra hge
  simp [List.getElem?_eq_none (Nat.le_of_not_lt hge)] at h

theorem drop_cons_of_getElem? {s : List Char} {i : ℕ} {c : Char} (h : s[i]? = some c) :
    s.drop i = c :: s.drop (i + 1) := by
  have hlt := getElem?_some_lt h
  rw [List.drop_eq_getElem_cons hlt]
  have hg : s[i] = c := by
    rw [List.getElem?_eq_getElem hlt] at h
    exact Option.some_injective _ h
  rw [hg]

theorem numLen_le_length (cs : List Char) (d : Bool) : numLen cs d ≤ cs.length := by
  induction cs generalizing d with
  | nil => simp [numLen]
  | cons c rest ih =>
    simp only [numLen, List.length_cons]
    split
    · have := ih d; omega
    · split
      · have := ih true; omega
      · omega

theorem numLen_all (cs : List Char) (d : Bool) :
    (cs.take (numLen cs d)).all (fun c => c.isDigit || c = '.') = true := by
  induction cs generalizing d with
  | nil => simp [numLen]
  | cons c rest ih =>
    simp only [numLen]
    split
    · next h => simpa [Nat.add_comm 1, List.take_succ_cons, h] using ih d
    · split
      · next h =>
        have hc : c = '.' := by
          rcases Bool.and_eq_true_iff.mp h with ⟨h1, _⟩
          exact decide_eq_true_eq.mp h1
        simpa [Nat.add_comm 1, List.take_succ_cons, hc] using ih true
      · simp

theorem numLen_true_digits (cs : List Char) :
    (cs.take (numLen cs true)).all Char.isDigit = true := by
  induction cs with
  | nil => simp [numLen]
  | cons c rest ih =>
    simp only [numLen]
    split
    · next h => simpa [Nat.add_comm 1, List.take_succ_cons, h] using ih
    · simp

theorem numLen_false_shape (cs : List Char) :
    (cs.take (numLen cs false)).all Char.isDigit = true ∨
    ∃ A C, cs.take (numLen cs false) = A ++ '.' :: C ∧ A.all Char.isDigit = true ∧
      C.all Char.isDigit = true := by
  induction cs with
  | nil => left; simp [numLen]
  | cons c rest ih =>
    simp only [numLen]
    split
    · next h =>
      rw [Nat.add_comm 1, List.take_succ_cons]
      rcases ih with h1 | ⟨A, C, hAC, hA, hC⟩
      · left; simp [h, h1]
      · right
        exact ⟨c :: A, C, by simp [hAC], by simp [h, hA], hC⟩
    · split
      · next h =>
        have hc : c = '.' := by
          rcases Bool.and_eq_true_iff.mp h with ⟨h1, _⟩
          exact decide_eq_true_eq.mp h1
        rw [Nat.add_comm 1, List.take_succ_cons]
        right
        exact ⟨[], rest.take (numLen rest true), by simp [hc], rfl, numLen_true_digits rest⟩
      · left; simp

theorem identLen_le_length (cs : List Char) : identLen cs ≤ cs.length := by
  induction cs with
  | nil => simp [identLen]
  | cons c rest ih =>
    simp only [identLen, List.length_cons]
    split
    · omega
    · omega

theorem identLen_all (cs : List Char) :
    (cs.take (identLen cs)).all isIdentChar = true := by
  induction cs with
  | nil => simp [identLen]
  | cons c rest ih =>
    simp only [identLen]
    split
    · next h => simpa [Nat.add_comm 1, List.take_succ_cons, h] using ih
    · simp

theorem identLen_next (cs : List Char) {c : Char} (h : cs[identLen cs]? = some c) :
    isIdentChar c = false := by
  induction cs with
  | nil => simp at h
  | cons a rest ih =>
    simp only [identLen] at h ⊢
    split at h
    · rw [Nat.add_comm 1, List.getElem?_cons_succ] at h
      exact ih h
    · next hna =>
      simp only [List.getElem?_cons_zero] at h
      have : a = c := Option.some_injective _ h
      subst this
      exact Bool.not_eq_true _ ▸ (by simpa using hna)

theorem commentLen_pos (cs : List Char) : 1 ≤ commentLen cs := by
  cases cs with
  | nil => simp [commentLen]
  | cons c rest =>
    simp only [commentLen]
    split
    · omega
    · omega

theorem commentLen_le (cs : List Char) : commentLen cs ≤ cs.length + 1 := by
  induction cs with
  | nil => simp [commentLen]
  | cons c rest ih =>
    simp only [commentLen, List.length_cons]
    split
    · omega
    · omega

theorem commentLen_body (cs : List Char) {k : ℕ} (hk : k + 1 < commentLen cs) :
    cs[k]? ≠ some '\n' := by
  induction cs generalizing k with
  | nil => simp [commentLen] at hk
  | cons c rest ih =>
    simp only [commentLen] at hk
    split at hk
    · omega
    · next hc =>
      cases k with
      | zero => simpa using hc
      | succ k =>
        rw [List.getElem?_cons_succ]
        exact ih (by omega)

theorem commentLen_last (cs : List Char) :
    cs[commentLen cs - 1]? = some '\n' ∨ commentLen cs = cs.length + 1 := by
  induction cs with
  | nil => right; simp [commentLen]
  | cons c rest ih =>
    simp only [commentLen]
    split
    · next hc => left; simpa using hc
    · rcases ih with h | h
      · left
        have := commentLen_pos rest
        have hidx : 1 + commentLen rest - 1 = (commentLen rest - 1) + 1 := by omega
        rw [hidx, List.getElem?_cons_succ]
        exact h
      · right; simp [h]; omega

theorem stringScanLen_pos (cs : List Char) {k : ℕ} (h : stringScanLen cs = some k) :
    1 ≤ k := by
  induction cs generalizing k with
  | nil => simp [stringScanLen] at h
  | cons c rest ih =>
    simp only [stringScanLen] at h
    split at h
    · simp at h; omega
    · cases him : stringScanLen rest with
      | none => simp [him] at h
      | some m => simp [him] at h; omega

theorem stringScanLen_le (cs : List Char) {k : ℕ} (h : stringScanLen cs = some k) :
    k ≤ cs.length := by
  induction cs generalizing k with
  | nil => simp [stringScanLen] at h
  | cons c rest ih =>
    simp only [stringScanLen, List.length_cons] at h ⊢
    split at h
    · simp at h; omega
    · cases him : stringScanLen rest with
      | none => simp [him] at h
      | some m =>
        simp [him] at h
        have := ih him
        omega

theorem stringScanLen_last (cs : List Char) {k : ℕ} (h : stringScanLen cs = some k) :
    cs[k - 1]? = some '\"' := by
  induction cs generalizing k with
  | nil => simp [stringScanLen] at h
  | cons c rest ih =>
    simp only [stringScanLen] at h
    split at h
    · next hc =>
      simp at h
      subst h
      simpa using hc
    · cases him : stringScanLen rest with
      | none => simp [him] at h
      | some m =>
        simp [him] at h
        have hm := stringScanLen_pos rest him
        have hidx : k - 1 = (m - 1) + 1 := by omega
        rw [hidx, List.getElem?_cons_succ]
        exact ih him

theorem stringScanLen_body (cs : List Char) {k : ℕ} (h : stringScanLen cs = some k)
    {m : ℕ} (hm : m + 1 < k) : cs[m]? ≠ some '\"' := by
  induction cs generalizing k m with
  | nil => simp [stringScanLen] at h
  | cons c rest ih =>
    simp only [stringScanLen] at h
    split at h
    · simp at h; omega
    · next hc =>
      cases him : stringScanLen rest with
      | none => simp [him] at h
      | some mm =>
        simp [him] at h
        cases m with
        | zero => simpa using hc
        | succ m =>
          rw [List.getElem?_cons_succ]
          exact ih him (by omega)

theorem stringScanLen_none (cs : List Char) (h : stringScanLen cs = none) :
    '\"' ∉ cs := by
  induction cs with
  | nil => simp
  | cons c rest ih =>
    simp only [stringScanLen] at h
    split at h
    · simp at h
    · next hc =>
      cases him : stringScanLen rest with
      | none =>
        have hr := ih him
        simp only [List.mem_cons, not_or]
        exact ⟨fun he => hc he.symm, hr⟩
      | some m => simp [him] at h

theorem takeWhile_of_all {p : Char → Bool} {L : List Char} (h : L.all p = true) :
    L.takeWhile p = L :=
  List.takeWhile_eq_self_iff.mpr (List.all_eq_true.mp h)

theorem dropWhile_of_all {p : Char → Bool} {L : List Char} (h : L.all p = true) :
    L.dropWhile p = [] :=
  List.dropWhile_eq_nil_iff.mpr (List.all_eq_true.mp h)

theorem isDigit_ne_dot {c : Char} (h : c.isDigit = true) : c ≠ '.' := by
  intro he
  subst he
  exact absurd h (by decide)

theorem parseF64?_digits {L : List Char} (hne : L ≠ []) (h : L.all Char.isDigit = true) :
    (parseF64? (String.mk L)).isSome = true := by
  simp only [parseF64?]
  rw [takeWhile_of_all h, dropWhile_of_all h]
  simp [hne]

theorem parseF64?_dotted {A C : List Char} (hne : A ≠ []) (hA : A.all Char.isDigit = true)
    (hC : C.all Char.isDigit = true) :
    (parseF64? (String.mk (A ++ '.' :: C))).isSome = true := by
  have h1 : (A ++ '.' :: C).takeWhile Char.isDigit = A := by
    rw [List.takeWhile_append, takeWhile_of_all hA]
    simp [List.takeWhile_cons]
  have h2 : (A ++ '.' :: C).dropWhile Char.isDigit = '.' :: C := by
    rw [List.dropWhile_append, dropWhile_of_all hA]
    simp [List.dropWhile_cons]
  simp only [parseF64?]
  rw [h1, h2]
  simp [hne, hC]

theorem read_number_parses {s : List Char} {i : ℕ} {c : Char}
    (hc : s[i]? = some c) (hd : c.isDigit = true) {lex : String} {j : ℕ}
    (hr : read_number s i = (some lex, j)) :
    (parseF64? lex).isSome = true := by
  have hpos : numLen (s.drop i) false ≠ 0 := numLenPosOfDigit s i c hc hd
  have hnle : numLen (s.drop i) false ≤ (s.drop i).length := numLen_le_length _ false
  have hilen : i < s.length := getElem?_some_lt hc
  have hdlen : (s.drop i).length = s.length - i := List.length_drop i s
  have hlen : ((s.drop i).take (numLen (s.drop i) false)).length = numLen (s.drop i) false := by
    simp [List.length_take]
    omega
  have htakek : ∀ k, k < numLen (s.drop i) false →
      ((s.drop i).take (numLen (s.drop i) false))[k]? = (s.drop i)[k]? := by
    intro k hk
    rw [List.getElem?_take, if_pos hk]
  have hhead : ((s.drop i).take (numLen (s.drop i) false))[0]? = some c := by
    rw [htakek 0 (Nat.pos_of_ne_zero hpos), List.getElem?_drop]
    simpa using hc
  have hcond : ¬(i + numLen (s.drop i) false = i) := by omega
  simp only [read_number] at hr
  rw [if_neg hcond] at hr
  have hback : s[i + numLen (s.drop i) false - 1]? = (s.drop i)[numLen (s.drop i) false - 1]? := by
    rw [List.getElem?_drop]
    congr 1
    omega
  rcases numLen_false_shape (s.drop i) with hall | ⟨A, C, hAC, hA, hC⟩
  · -- all digits: no back-off, lexeme is the whole run
    have hdig : ∃ dd, (s.drop i)[numLen (s.drop i) false - 1]? = some dd ∧ dd.isDigit = true := by
      have hklt : numLen (s.drop i) false - 1 < numLen (s.drop i) false := by omega
      have := htakek (numLen (s.drop i) false - 1) hklt
      have hlt2 : numLen (s.drop i) false - 1 <
          ((s.drop i).take (numLen (s.drop i) false)).length := by omega
      refine ⟨((s.drop i).take (numLen (s.drop i) false))[numLen (s.drop i) false - 1], ?_, ?_⟩
      · rw [← this, List.getElem?_eq_getElem hlt2]
      · exact List.all_eq_true.mp hall _ (List.getElem_mem hlt2)
    rcases hdig with ⟨dd, hdd, hddd⟩
    have hnotdot : ¬(s[i + numLen (s.drop i) false - 1]? = some '.') := by
      rw [hback, hdd]
      intro hcontra
      exact isDigit_ne_dot hddd (Option.some_injective _ hcontra)
    rw [if_neg hnotdot] at hr
    have harg : i + numLen (s.drop i) false - i = numLen (s.drop i) false := by omega
    rw [harg] at hr
    have hlex : lex = String.mk ((s.drop i).take (numLen (s.drop i) false)) := by
      have h5 := congrArg Prod.fst hr
      simp only [Prod.fst] at h5
      exact (Option.some_injective _ h5).symm
    rw [hlex]
    apply parseF64?_digits
    · intro hnil
      rw [hnil] at hlen
      simp at hlen
      omega
    · exact hall
  · -- one dot: split on whether it is trailing
    have hAne : A ≠ [] := by
      intro hAnil
      subst hAnil
      simp at hAC
      rw [hAC] at hhead
      simp at hhead
      exact isDigit_ne_dot hd hhead.symm
    rcases List.eq_nil_or_concat C with hCnil | ⟨C', d, hCd⟩
    · -- trailing dot: back off, lexeme is A
      subst hCnil
      have hlenn : A.length + 1 = numLen (s.drop i) false := by
        have := congrArg List.length hAC
        simp [hlen] at this
        omega
      have hdot : s[i + numLen (s.drop i) false - 1]? = some '.' := by
        rw [hback, ← htakek _ (by omega), hAC]
        have : numLen (s.drop i) false - 1 = A.length := by omega
        rw [this]
        exact List.getElem?_concat_length A '.'
      rw [if_pos hdot] at hr
      have harg : i + numLen (s.drop i) false - 1 - i = A.length := by omega
      rw [harg] at hr
      have hlex : lex = String.mk ((s.drop i).take A.length) := by
        have h5 := congrArg Prod.fst hr
        simp only [Prod.fst] at h5
        exact (Option.some_injective _ h5).symm
      have htakeA : (s.drop i).take A.length = A := by
        have h6 : (s.drop i).take A.length =
            ((s.drop i).take (numLen (s.drop i) false)).take A.length := by
          rw [List.take_take]
          congr 1
          omega
        rw [h6, hAC, List.take_append_eq_append_take]
        simp
      rw [hlex, htakeA]
      exact parseF64?_digits hAne hA
    · -- interior dot: no back-off, lexeme is the whole run
      subst hCd
      have hconcat : (s.drop i).take (numLen (s.drop i) false) = (A ++ '.' :: C') ++ [d] := by
        rw [hAC]
        simp
      have hlenn : (A ++ '.' :: C').length + 1 = numLen (s.drop i) false := by
        have := congrArg List.length hconcat
        simp [hlen] at this
        simp
        omega
      have hddig : d.isDigit = true := by
        apply List.all_eq_true.mp hC
        simp
      have hnotdot : ¬(s[i + numLen (s.drop i) false - 1]? = some '.') := by
        rw [hback, ← htakek _ (by omega), hconcat]
        have : numLen (s.drop i) false - 1 = (A ++ '.' :: C').length := by omega
        rw [this, List.getElem?_concat_length]
        intro hcontra
        exact isDigit_ne_dot hddig (Option.some_injective _ hcontra)
      rw [if_neg hnotdot] at hr
      have harg : i + numLen (s.drop i) false - i = numLen (s.drop i) false := by omega
      rw [harg] at hr
      have hlex : lex = String.mk ((s.drop i).take (numLen (s.drop i) false)) := by
        have h5 := congrArg Prod.fst hr
        simp only [Prod.fst] at h5
        exact (Option.some_injective _ h5).symm
      rw [hlex, hAC]
      exact parseF64?_dotted hAne hA hC

theorem diagShape_unterm (n : ℕ) : diagShape (untermMsg n) := Or.inl ⟨n, rfl⟩

theorem diagShape_unexp (n : ℕ) (c : Char) : diagShape (unexpMsg n c) := Or.inr ⟨n, c, rfl⟩

theorem isIdentStart_ne_dot {c : Char} (h : isIdentStart c = true) : c ≠ '.' := by
  intro he
  subst he
  exact absurd h (by decide)

theorem read_number_bounds {s : List Char} {i : ℕ} {c : Char} (hc : s[i]? = some c)
    (hd : c.isDigit = true) {lex : String} {j : ℕ}
    (hr : read_number s i = (some lex, j)) :
    i < j ∧ j ≤ i + numLen (s.drop i) false ∧
      lex = String.mk ((s.drop i).take (j - i)) := by
  have hpos : numLen (s.drop i) false ≠ 0 := numLenPosOfDigit s i c hc hd
  simp only [read_number] at hr
  split at hr
  · simp at hr
  · next hcond =>
    split at hr
    · next hdot =>
      -- back-off: the run cannot be the single digit at `i`
      have hn2 : 2 ≤ numLen (s.drop i) false := by
        by_contra hlt
        have hn1 : numLen (s.drop i) false = 1 := by omega
        rw [hn1] at hdot
        simp at hdot
        rw [hc] at hdot
        exact isDigit_ne_dot hd (Option.some_injective _ hdot)
      injection hr with h1 h2
      injection h1 with h1
      refine ⟨by omega, by omega, ?_⟩
      rw [← h2]
      exact h1.symm
    · next hdot =>
      injection hr with h1 h2
      injection h1 with h1
      refine ⟨by omega, by omega, ?_⟩
      rw [← h2]
      exact h1.symm

theorem read_ident_bounds {s : List Char} {i : ℕ} {c : Char} (hc : s[i]? = some c)
    (hst : isIdentStart c = true) {lex : String} {j : ℕ}
    (hr : read_ident s i = (some lex, j)) :
    i < j ∧ j ≤ i + identLen (s.drop i) ∧
      lex = String.mk ((s.drop i).take (j - i)) := by
  have hpos : identLen (s.drop i) ≠ 0 := identLenPosOfStart s i c hc hst
  simp only [read_ident] at hr
  split at hr
  · simp at hr
  · next hcond =>
    split at hr
    · next hdot =>
      have hn2 : 2 ≤ identLen (s.drop i) := by
        by_contra hlt
        have hn1 : identLen (s.drop i) = 1 := by omega
        rw [hn1] at hdot
        simp at hdot
        rw [hc] at hdot
        exact isIdentStart_ne_dot hst (Option.some_injective _ hdot)
      injection hr with h1 h2
      injection h1 with h1
      refine ⟨by omega, by omega, ?_⟩
      rw [← h2]
      exact h1.symm
    · next hdot =>
      injection hr with h1 h2
      injection h1 with h1
      refine ⟨by omega, by omega, ?_⟩
      rw [← h2]
      exact h1.symm

theorem readToken_tok {l : Lexer} {r : Except String Token} {l2 : Lexer}
    (h : lexStep l = Step.tok r l2) : readToken l = (r, l2) := by
  rw [readToken]
  split
  · next r2 l3 h2 =>
    rw [h] at h2
    injection h2 with e1 e2
    rw [e1, e2]
  · next l3 h2 =>
    rw [h] at h2
    exact Step.noConfusion h2

theorem readToken_retry {l l2 : Lexer} (h : lexStep l = Step.retry l2) :
    readToken l = readToken l2 := by
  conv_lhs => rw [readToken]
  split
  · next r2 l3 h2 =>
    rw [h] at h2
    exact Step.noConfusion h2
  · next l3 h2 =>
    rw [h] at h2
    injection h2 with e1
    rw [e1]

theorem keywordLookup_ne_EOF {s : String} {kw : Token} (h : keywordLookup s = some kw) :
    kw ≠ Token.EOF := by
  simp only [keywordLookup, Option.map_eq_some'] at h
  obtain ⟨p, hp, hkw⟩ := h
  have hmem := List.mem_of_find?_eq_some hp
  subst hkw
  have : ∀ p ∈ KEYWORDS, p.2 ≠ Token.EOF := by decide
  exact this p hmem

theorem length_le_of_getElem?_none {s : List Char} {i : ℕ} (h : s[i]? = none) :
    s.length ≤ i := by
  by_contra hlt
  rw [List.getElem?_eq_getElem (Nat.lt_of_not_le hlt)] at h
  cases h

theorem lexStep_tok_spec : ∀ l : Lexer, ∀ (r : Except String Token) (l2 : Lexer),
    lexStep l = Step.tok r l2 →
    ∃ t, r = Except.ok t ∧ l2.string = l.string ∧ l.index < l2.index ∧
      l2.errs = l.errs ∧ l2.line = l.line ∧ l2.error = l.error ∧
      (t = Token.EOF → l2.done = true ∧ l.string.length < l2.index) ∧
      (t ≠ Token.EOF → l2.done = l.done) := by
  intro l0 r0 l20 h0
  refine lexStep_elim
    (fun l s => ∀ (r : Except String Token) (l2 : Lexer), s = Step.tok r l2 →
      ∃ t, r = Except.ok t ∧ l2.string = l.string ∧ l.index < l2.index ∧
        l2.errs = l.errs ∧ l2.line = l.line ∧ l2.error = l.error ∧
        (t = Token.EOF → l2.done = true ∧ l.string.length < l2.index) ∧
        (t ≠ Token.EOF → l2.done = l.done))
    ?_ ?_ ?_ ?_ ?_ ?_ ?_ ?_ ?_ ?_ ?_ ?_ ?_ ?_ ?_ ?_ ?_ ?_ ?_ ?_ ?_ ?_ ?_ ?_ ?_ ?_ ?_ ?_ ?_ ?_
    l0 r0 l20 h0
  · intro l hget r l2 he
    injection he with e1 e2
    subst e1
    subst e2
    exact ⟨Token.EOF, rfl, rfl, by show l.index < l.index + 1; omega, rfl, rfl, rfl,
      fun _ => ⟨rfl, by
        have := length_le_of_getElem?_none hget
        show l.string.length < l.index + 1
        omega⟩,
      fun hne => absurd rfl hne⟩
  · intro l hget r l2 he
    injection he with e1 e2
    subst e1
    subst e2
    exact ⟨Token.LParen, rfl, rfl, by show l.index < l.index + 1; omega, rfl, rfl, rfl,
      fun he => Token.noConfusion he, fun _ => rfl⟩
  · intro l hget r l2 he
    injection he with e1 e2
    subst e1
    subst e2
    exact ⟨Token.RParen, rfl, rfl, by show l.index < l.index + 1; omega, rfl, rfl, rfl,
      fun he => Token.noConfusion he, fun _ => rfl⟩
  · intro l hget r l2 he
    injection he with e1 e2
    subst e1
    subst e2
    exact ⟨Token.LBrace, rfl, rfl, by show l.index < l.index + 1; omega, rfl, rfl, rfl,
      fun he => Token.noConfusion he, fun _ => rfl⟩
  · intro l hget r l2 he
    injection he with e1 e2
    subst e1
    subst e2
    exact ⟨Token.RBrace, rfl, rfl, by show l.index < l.index + 1; omega, rfl, rfl, rfl,
      fun he => Token.noConfusion he, fun _ => rfl⟩
  · intro l hget r l2 he
    injection he with e1 e2
    subst e1
    subst e2
    exact ⟨Token.Semicolon, rfl, rfl, by show l.index < l.index + 1; omega, rfl, rfl, rfl,
      fun he => Token.noConfusion he, fun _ => rfl⟩
  · intro l hget r l2 he
    injection he with e1 e2
    subst e1
    subst e2
    exact ⟨Token.Star, rfl, rfl, by show l.index < l.index + 1; omega, rfl, rfl, rfl,
      fun he => Token.noConfusion he, fun _ => rfl⟩
  · intro l hget r l2 he
    injection he with e1 e2
    subst e1
    subst e2
    exact ⟨Token.Dot, rfl, rfl, by show l.index < l.index + 1; omega, rfl, rfl, rfl,
      fun he => Token.noConfusion he, fun _ => rfl⟩
  · intro l hget r l2 he
    injection he with e1 e2
    subst e1
    subst e2
    exact ⟨Token.Comma, rfl, rfl, by show l.index < l.index + 1; omega, rfl, rfl, rfl,
      fun he => Token.noConfusion he, fun _ => rfl⟩
  · intro l hget r l2 he
    injection he with e1 e2
    subst e1
    subst e2
    exact ⟨Token.Plus, rfl, rfl, by show l.index < l.index + 1; omega, rfl, rfl, rfl,
      fun he => Token.noConfusion he, fun _ => rfl⟩
  · intro l hget r l2 he
    injection he with e1 e2
    subst e1
    subst e2
    exact ⟨Token.Minus, rfl, rfl, by show l.index < l.index + 1; omega, rfl, rfl, rfl,
      fun he => Token.noConfusion he, fun _ => rfl⟩
  · intro l hget hp r l2 he
    injection he with e1 e2
    subst e1
    subst e2
    exact ⟨Token.EqualEqual, rfl, rfl, by show l.index < l.index + 1 + 1; omega, rfl, rfl, rfl,
      fun he => Token.noConfusion he, fun _ => rfl⟩
  · intro l hget hp r l2 he
    injection he with e1 e2
    subst e1
    subst e2
    exact ⟨Token.Equal, rfl, rfl, by show l.index < l.index + 1; omega, rfl, rfl, rfl,
      fun he => Token.noConfusion he, fun _ => rfl⟩
  · intro l hget hp r l2 he
    injection he with e1 e2
    subst e1
    subst e2
    exact ⟨Token.BangEqual, rfl, rfl, by show l.index < l.index + 1 + 1; omega, rfl, rfl, rfl,
      fun he => Token.noConfusion he, fun _ => rfl⟩
  · intro l hget hp r l2 he
    injection he with e1 e2
    subst e1
    subst e2
    exact ⟨Token.Bang, rfl, rfl, by show l.index < l.index + 1; omega, rfl, rfl, rfl,
      fun he => Token.noConfusion he, fun _ => rfl⟩
  · intro l hget hp r l2 he
    injection he with e1 e2
    subst e1
    subst e2
    exact ⟨Token.LessEqual, rfl, rfl, by show l.index < l.index + 1 + 1; omega, rfl, rfl, rfl,
      fun he => Token.noConfusion he, fun _ => rfl⟩
  · intro l hget hp r l2 he
    injection he with e1 e2
    subst e1
    subst e2
    exact ⟨Token.Less, rfl, rfl, by show l.index < l.index + 1; omega, rfl, rfl, rfl,
      fun he => Token.noConfusion he, fun _ => rfl⟩
  · intro l hget hp r l2 he
    injection he with e1 e2
    subst e1
    subst e2
    exact ⟨Token.GreaterEqual, rfl, rfl, by show l.index < l.index + 1 + 1; omega, rfl, rfl, rfl,
      fun he => Token.noConfusion he, fun _ => rfl⟩
  · intro l hget hp r l2 he
    injection he with e1 e2
    subst e1
    subst e2
    exact ⟨Token.Greater, rfl, rfl, by show l.index < l.index + 1; omega, rfl, rfl, rfl,
      fun he => Token.noConfusion he, fun _ => rfl⟩
  · intro l hget hp r l2 he
    exact Step.noConfusion he
  · intro l hget hp r l2 he
    injection he with e1 e2
    subst e1
    subst e2
    exact ⟨Token.Slash, rfl, rfl, by show l.index < l.index + 1; omega, rfl, rfl, rfl,
      fun he => Token.noConfusion he, fun _ => rfl⟩
  · intro l k hget hss r l2 he
    injection he with e1 e2
    subst e1
    subst e2
    exact ⟨Token.Str (String.mk ((l.string.drop (l.index + 1)).take (k - 1))), rfl, rfl,
      by show l.index < l.index + 1 + k; omega, rfl, rfl, rfl,
      fun he => Token.noConfusion he, fun _ => rfl⟩
  · intro l hget hss r l2 he
    exact Step.noConfusion he
  · intro l c num j v hget hdig hr hp r l2 he
    injection he with e1 e2
    subst e1
    subst e2
    have hb := read_number_bounds hget hdig hr
    exact ⟨Token.Number v num, rfl, rfl, hb.1, rfl, rfl, rfl,
      fun he => Token.noConfusion he, fun _ => rfl⟩
  · intro l c num j hget hdig hr hp r l2 he
    have := read_number_parses hget hdig hr
    rw [hp] at this
    cases this
  · intro l c s j kw hget hdig hst hr hkw r l2 he
    injection he with e1 e2
    subst e1
    subst e2
    have hb := read_ident_bounds hget hst hr
    exact ⟨kw, rfl, rfl, hb.1, rfl, rfl, rfl,
      fun he => absurd he (keywordLookup_ne_EOF hkw), fun _ => rfl⟩
  · intro l c s j hget hdig hst hr hkw r l2 he
    injection he with e1 e2
    subst e1
    subst e2
    have hb := read_ident_bounds hget hst hr
    exact ⟨Token.Ident s, rfl, rfl, hb.1, rfl, rfl, rfl,
      fun he => Token.noConfusion he, fun _ => rfl⟩
  · intro l hget r l2 he
    exact Step.noConfusion he
  · intro l c hget hw hn r l2 he
    exact Step.noConfusion he
  · intro l c hget h1 h2 h3 h4 h5 h6 h7 h8 h9 h10 h11 h12 h13 h14 h15 h16 h17 h18 h19 h20 r l2 he
    exact Step.noConfusion he

theorem lexStep_retry_spec : ∀ l l2 : Lexer, lexStep l = Step.retry l2 →
    l2.string = l.string ∧ l.index < l2.index ∧ l2.done = l.done ∧
      ∃ d, l2.errs = l.errs ++ d ∧ ∀ e ∈ d, diagShape e := by
  intro l0 l20 h0
  refine lexStep_elim
    (fun l s => ∀ l2 : Lexer, s = Step.retry l2 →
      l2.string = l.string ∧ l.index < l2.index ∧ l2.done = l.done ∧
        ∃ d, l2.errs = l.errs ++ d ∧ ∀ e ∈ d, diagShape e)
    ?_ ?_ ?_ ?_ ?_ ?_ ?_ ?_ ?_ ?_ ?_ ?_ ?_ ?_ ?_ ?_ ?_ ?_ ?_ ?_ ?_ ?_ ?_ ?_ ?_ ?_ ?_ ?_ ?_ ?_
    l0 l20 h0
  · intro l hget l2 he; exact Step.noConfusion he
  · intro l hget l2 he; exact Step.noConfusion he
  · intro l hget l2 he; exact Step.noConfusion he
  · intro l hget l2 he; exact Step.noConfusion he
  · intro l hget l2 he; exact Step.noConfusion he
  · intro l hget l2 he; exact Step.noConfusion he
  · intro l hget l2 he; exact Step.noConfusion he
  · intro l hget l2 he; exact Step.noConfusion he
  · intro l hget l2 he; exact Step.noConfusion he
  · intro l hget l2 he; exact Step.noConfusion he
  · intro l hget l2 he; exact Step.noConfusion he
  · intro l hget hp l2 he; exact Step.noConfusion he
  · intro l hget hp l2 he; exact Step.noConfusion he
  · intro l hget hp l2 he; exact Step.noConfusion he
  · intro l hget hp l2 he; exact Step.noConfusion he
  · intro l hget hp l2 he; exact Step.noConfusion he
  · intro l hget hp l2 he; exact Step.noConfusion he
  · intro l hget hp l2 he; exact Step.noConfusion he
  · intro l hget hp l2 he; exact Step.noConfusion he
  · -- comment arm
    intro l hget hp l2 he
    injection he with e1
    subst e1
    exact ⟨rfl, by show l.index < l.index + 1 + _; omega, rfl, [], by simp, by simp⟩
  · intro l hget hp l2 he; exact Step.noConfusion he
  · intro l k hget hss l2 he; exact Step.noConfusion he
  · -- unterminated string arm
    intro l hget hss l2 he
    injection he with e1
    subst e1
    have hlt := indexLtOfSome hget
    exact ⟨rfl, by show l.index < l.string.length + 1; omega, rfl,
      [untermMsg l.line], rfl, by
        intro e hmem
        simp at hmem
        subst hmem
        exact diagShape_unterm l.line⟩
  · intro l c num j v hget hdig hr hp l2 he; exact Step.noConfusion he
  · intro l c num j hget hdig hr hp l2 he; exact Step.noConfusion he
  · intro l c s j kw hget hdig hst hr hkw l2 he; exact Step.noConfusion he
  · intro l c s j hget hdig hst hr hkw l2 he; exact Step.noConfusion he
  · -- newline arm
    intro l hget l2 he
    injection he with e1
    subst e1
    exact ⟨rfl, by show l.index < l.index + 1; omega, rfl, [], by simp, by simp⟩
  · -- whitespace arm
    intro l c hget hw hn l2 he
    injection he with e1
    subst e1
    exact ⟨rfl, by show l.index < l.index + 1; omega, rfl, [], by simp, by simp⟩
  · -- unexpected-character arm
    intro l c hget h1 h2 h3 h4 h5 h6 h7 h8 h9 h10 h11 h12 h13 h14 h15 h16 h17 h18 h19 h20 l2 he
    injection he with e1
    subst e1
    exact ⟨rfl, by show l.index < l.index + 1; omega, rfl,
      [unexpMsg l.line c], rfl, by
        intro e hmem
        simp at hmem
        subst hmem
        exact diagShape_unexp l.line c⟩

theorem readToken_spec (l : Lexer) :
    ∃ t l2, readToken l = (Except.ok t, l2) ∧ l2.string = l.string ∧ l.index < l2.index ∧
      (t = Token.EOF → l2.done = true ∧ l.string.length < l2.index) ∧
      (t ≠ Token.EOF → l2.done = l.done) ∧
      ∃ d, l2.errs = l.errs ++ d ∧ ∀ e ∈ d, diagShape e := by
  induction l using readToken.induct with
  | case1 l r l2 h =>
    obtain ⟨t, he, hstr, hidx, herrs, hline, herr, hEOF, hNE⟩ := lexStep_tok_spec l r l2 h
    subst he
    exact ⟨t, l2, readToken_tok h, hstr, hidx, hEOF, hNE, [], by simp [herrs], by simp⟩
  | case2 l l2 h ih =>
    obtain ⟨hstr, hidx, hdone, d1, herrs, hd1⟩ := lexStep_retry_spec l l2 h
    obtain ⟨t, l3, hrt, hstr3, hidx3, hEOF3, hNE3, d2, herrs3, hd2⟩ := ih
    refine ⟨t, l3, by rw [readToken_retry h]; exact hrt, by rw [hstr3, hstr], by omega,
      fun he => ⟨(hEOF3 he).1, ?_⟩, fun hne => by rw [hNE3 hne, hdone], d1 ++ d2, ?_, ?_⟩
    · have := (hEOF3 he).2
      rw [hstr] at this
      omega
    · rw [herrs3, herrs, List.append_assoc]
    · intro e hmem
      rcases List.mem_append.mp hmem with hm | hm
      · exact hd1 e hm
      · exact hd2 e hm

theorem countNL_nil {s : List Char} {i j : ℕ} (h : j ≤ i) : countNL s i j = 0 := by
  simp [countNL, Nat.sub_eq_zero_of_le h]

theorem countNL_atEnd {s : List Char} {i j : ℕ} (h : s.length ≤ i) : countNL s i j = 0 := by
  simp [countNL, List.drop_eq_nil_of_le h]

theorem countNL_single {s : List Char} {i : ℕ} {c : Char} (h : s[i]? = some c) :
    countNL s i (i + 1) = if c = '\n' then 1 else 0 := by
  rw [countNL, Nat.add_sub_cancel_left, drop_cons_of_getElem? h]
  by_cases he : c = '\n'
  · subst he; simp
  · simp [List.count_cons, he, Ne.symm he]

theorem countNL_trans {s : List Char} {i j k : ℕ} (h1 : i ≤ j) (h2 : j ≤ k) :
    countNL s i k = countNL s i j + countNL s j k := by
  simp only [countNL]
  have hk : k - i = (j - i) + (k - j) := by omega
  rw [hk, List.take_add, List.count_append, List.drop_drop]
  have hij : i + (j - i) = j := by omega
  rw [hij]

theorem countNL_zero_of_all {s : List Char} {i j : ℕ} {p : Char → Bool}
    (hall : ((s.drop i).take (j - i)).all p = true) (hp : ∀ x, p x = true → x ≠ '\n') :
    countNL s i j = 0 := by
  rw [countNL, List.count_eq_zero]
  intro hmem
  exact hp _ (List.all_eq_true.mp hall _ hmem) rfl

theorem countNL_le_numLen {s : List Char} {i j : ℕ}
    (hj : j ≤ i + numLen (s.drop i) false) : countNL s i j = 0 := by
  apply countNL_zero_of_all (p := fun c => c.isDigit || c = '.')
  · have h1 : (s.drop i).take (j - i) =
        ((s.drop i).take (numLen (s.drop i) false)).take (j - i) := by
      rw [List.take_take]
      congr 1
      omega
    rw [h1]
    apply List.all_eq_true.mpr
    intro x hx
    exact List.all_eq_true.mp (numLen_all (s.drop i) false) _ (List.take_subset _ _ hx)
  · intro x hx
    rcases Bool.or_eq_true_iff.mp hx with h | h
    · exact fun he => by subst he; exact absurd h (by decide)
    · exact fun he => by subst he; exact absurd h (by decide)

theorem countNL_le_identLen {s : List Char} {i j : ℕ}
    (hj : j ≤ i + identLen (s.drop i)) : countNL s i j = 0 := by
  apply countNL_zero_of_all (p := isIdentChar)
  · have h1 : (s.drop i).take (j - i) =
        ((s.drop i).take (identLen (s.drop i))).take (j - i) := by
      rw [List.take_take]
      congr 1
      omega
    rw [h1]
    apply List.all_eq_true.mpr
    intro x hx
    exact List.all_eq_true.mp (identLen_all (s.drop i)) _ (List.take_subset _ _ hx)
  · intro x hx he
    subst he
    exact absurd hx (by decide)

theorem lexStep_line : ∀ l : Lexer, noSlashQuote l.string →
    (lexStep l).state.line = l.line + countNL l.string l.index (lexStep l).state.index := by
  intro l0 hno0
  refine lexStep_elim
    (fun l s => noSlashQuote l.string →
      s.state.line = l.line + countNL l.string l.index s.state.index)
    ?_ ?_ ?_ ?_ ?_ ?_ ?_ ?_ ?_ ?_ ?_ ?_ ?_ ?_ ?_ ?_ ?_ ?_ ?_ ?_ ?_ ?_ ?_ ?_ ?_ ?_ ?_ ?_ ?_ ?_
    l0 hno0
  · intro l hget hno
    simp [Step.state, countNL_atEnd (length_le_of_getElem?_none hget)]
  · intro l hget hno
    simp [Step.state, countNL_single hget]
  · intro l hget hno
    simp [Step.state, countNL_single hget]
  · intro l hget hno
    simp [Step.state, countNL_single hget]
  · intro l hget hno
    simp [Step.state, countNL_single hget]
  · intro l hget hno
    simp [Step.state, countNL_single hget]
  · intro l hget hno
    simp [Step.state, countNL_single hget]
  · intro l hget hno
    simp [Step.state, countNL_single hget]
  · intro l hget hno
    simp [Step.state, countNL_single hget]
  · intro l hget hno
    simp [Step.state, countNL_single hget]
  · intro l hget hno
    simp [Step.state, countNL_single hget]
  · intro l hget hp hno
    simp only [Step.state]
    rw [countNL_trans (show l.index ≤ l.index + 1 by omega)
      (show l.index + 1 ≤ l.index + 1 + 1 by omega), countNL_single hget, countNL_single hp]
    simp
  · intro l hget hp hno
    simp [Step.state, countNL_single hget]
  · intro l hget hp hno
    simp only [Step.state]
    rw [countNL_trans (show l.index ≤ l.index + 1 by omega)
      (show l.index + 1 ≤ l.index + 1 + 1 by omega), countNL_single hget, countNL_single hp]
    simp
  · intro l hget hp hno
    simp [Step.state, countNL_single hget]
  · intro l hget hp hno
    simp only [Step.state]
    rw [countNL_trans (show l.index ≤ l.index + 1 by omega)
      (show l.index + 1 ≤ l.index + 1 + 1 by omega), countNL_single hget, countNL_single hp]
    simp
  · intro l hget hp hno
    simp [Step.state, countNL_single hget]
  · intro l hget hp hno
    simp only [Step.state]
    rw [countNL_trans (show l.index ≤ l.index + 1 by omega)
      (show l.index + 1 ≤ l.index + 1 + 1 by omega), countNL_single hget, countNL_single hp]
    simp
  · intro l hget hp hno
    simp [Step.state, countNL_single hget]
  · intro l hget hp hno
    exact absurd (List.getElem?_mem hget) hno.1
  · intro l hget hp hno
    exact absurd (List.getElem?_mem hget) hno.1
  · intro l k hget hss hno
    exact absurd (List.getElem?_mem hget) hno.2
  · intro l hget hss hno
    exact absurd (List.getElem?_mem hget) hno.2
  · intro l c num j v hget hdig hr hp hno
    have hb := read_number_bounds hget hdig hr
    simp only [Step.state]
    rw [countNL_le_numLen hb.2.1]
    simp
  · intro l c num j hget hdig hr hp hno
    have hb := read_number_bounds hget hdig hr
    simp only [Step.state]
    rw [countNL_le_numLen hb.2.1]
    simp
  · intro l c s j kw hget hdig hst hr hkw hno
    have hb := read_ident_bounds hget hst hr
    simp only [Step.state]
    rw [countNL_le_identLen hb.2.1]
    simp
  · intro l c s j hget hdig hst hr hkw hno
    have hb := read_ident_bounds hget hst hr
    simp only [Step.state]
    rw [countNL_le_identLen hb.2.1]
    simp
  · intro l hget hno
    simp [Step.state, countNL_single hget]
  · intro l c hget hw hn hno
    simp [Step.state, countNL_single hget, hn]
  · intro l c hget h1 h2 h3 h4 h5 h6 h7 h8 h9 h10 h11 h12 h13 h14 h15 h16 h17 h18 h19 h20 hno
    simp [Step.state, countNL_single hget, h19]

theorem readToken_line : ∀ l : Lexer, noSlashQuote l.string →
    (readToken l).2.line = l.line + countNL l.string l.index (readToken l).2.index := by
  intro l
  induction l using readToken.induct with
  | case1 l r l2 h =>
    intro hno
    have h1 := lexStep_line l hno
    rw [h] at h1
    simp only [Step.state] at h1
    rw [readToken_tok h]
    exact h1
  | case2 l l2 h ih =>
    intro hno
    have h1 := lexStep_line l hno
    rw [h] at h1
    simp only [Step.state] at h1
    have hret := lexStepRetry l l2 h
    have hno2 : noSlashQuote l2.string := by rw [hret.1]; exact hno
    have h2 := ih hno2
    rw [hret.1] at h2
    obtain ⟨t, l3, he3, hstr3, hidx3, _, _, _⟩ := readToken_spec l2
    have hsnd : (readToken l2).2 = l3 := by rw [he3]
    rw [hsnd] at h2
    rw [readToken_retry h, hsnd]
    rw [countNL_trans (show l.index ≤ l2.index from le_of_lt hret.2.1)
      (show l2.index ≤ l3.index from le_of_lt hidx3)]
    omega

theorem lexStep_atEnd {l : Lexer} (h : l.string.length ≤ l.index) :
    lexStep l = Step.tok (Except.ok Token.EOF) { l with index := l.index + 1, done := true } := by
  simp only [lexStep]
  rw [List.getElem?_eq_none h]

theorem readToken_atEnd {l : Lexer} (h : l.string.length ≤ l.index) :
    readToken l = (Except.ok Token.EOF, { l with index := l.index + 1, done := true }) :=
  readToken_tok (lexStep_atEnd h)

theorem runFuel_done : ∀ (n : ℕ) (l : Lexer), l.done = true → runFuel n l = ([], l) := by
  intro n l h
  rw [runFuel]
  split
  · rfl
  · simp [next, h]

theorem runFuel_spec : ∀ (n : ℕ) (l : Lexer), l.done = false → 1 ≤ n →
    l.string.length + 2 ≤ l.index + n →
    ∃ ts lf, runFuel n l = (ts ++ [Token.EOF], lf) ∧ Token.EOF ∉ ts ∧ lf.done = true ∧
      lf.string = l.string ∧ l.string.length < lf.index ∧ l.index ≤ lf.index ∧
      ∃ d, lf.errs = l.errs ++ d ∧ ∀ e ∈ d, diagShape e := by
  intro n
  induction n with
  | zero => intro l hdone hn1 hn2; omega
  | succ n ih =>
    intro l hdone hn1 hn2
    obtain ⟨t, l2, hrt, hstr, hidx, hEOFimp, hNEimp, d, herrs, hd⟩ := readToken_spec l
    have hnext : next l = (some t, l2) := by simp [next, hdone, hrt]
    have hunf : runFuel (n + 1) l = (t :: (runFuel n l2).1, (runFuel n l2).2) := by
      rw [runFuel]
      simp [hnext]
    by_cases hT : t = Token.EOF
    · subst hT
      have hd2 := hEOFimp rfl
      rw [runFuel_done n l2 hd2.1] at hunf
      exact ⟨[], l2, by simpa using hunf, by simp, hd2.1, hstr, hd2.2, le_of_lt hidx,
        d, herrs, hd⟩
    · have hdone2 : l2.done = false := by rw [hNEimp hT, hdone]
      have hn0 : n ≠ 0 := by
        intro hzero
        subst hzero
        have hend : l.string.length ≤ l.index := by omega
        rw [readToken_atEnd hend] at hrt
        injection hrt with e1 _
        injection e1 with e2
        exact hT e2.symm
      obtain ⟨ts', lf, hrun, hmem, hldone, hlstr, hlen, hle, d2, herrs2, hd2⟩ :=
        ih l2 hdone2 (by omega) (by rw [hstr]; omega)
      rw [hrun] at hunf
      refine ⟨t :: ts', lf, by simpa using hunf, ?_, hldone, by rw [hlstr, hstr],
        by rw [← hstr]; omega, by omega, d ++ d2, ?_, ?_⟩
      · intro hm
        rcases List.mem_cons.mp hm with hm | hm
        · exact hT hm.symm
        · exact hmem hm
      · rw [herrs2, herrs, List.append_assoc]
      · intro e hm
        rcases List.mem_append.mp hm with hm | hm
        · exact hd e hm
        · exact hd2 e hm

theorem runFuel_line : ∀ (n : ℕ) (l : Lexer), noSlashQuote l.string →
    (runFuel n l).2.line = l.line + countNL l.string l.index (runFuel n l).2.index ∧
    l.index ≤ (runFuel n l).2.index ∧ (runFuel n l).2.string = l.string := by
  intro n
  induction n with
  | zero =>
    intro l hno
    rw [runFuel]
    simp [countNL_nil (le_refl l.index)]
  | succ n ih =>
    intro l hno
    by_cases hdone : l.done = true
    · rw [runFuel_done _ _ hdone]
      simp [countNL_nil (le_refl l.index)]
    · have hdone' : l.done = false := by
        cases h : l.done
        · rfl
        · exact absurd h hdone
      obtain ⟨t, l2, hrt, hstr, hidx, hEOFimp, hNEimp, d, herrs, hd⟩ := readToken_spec l
      have hnext : next l = (some t, l2) := by simp [next, hdone', hrt]
      have hunf : runFuel (n + 1) l = (t :: (runFuel n l2).1, (runFuel n l2).2) := by
        rw [runFuel]
        simp [hnext]
      have h2snd : (runFuel (n + 1) l).2 = (runFuel n l2).2 := by rw [hunf]
      have hline2 : l2.line = l.line + countNL l.string l.index l2.index := by
        have h5 := readToken_line l hno
        rw [hrt] at h5
        exact h5
      have hno2 : noSlashQuote l2.string := by rw [hstr]; exact hno
      obtain ⟨ih1, ih2, ih3⟩ := ih l2 hno2
      rw [hstr] at ih1 ih3
      rw [h2snd]
      refine ⟨?_, by omega, ih3⟩
      rw [countNL_trans (le_of_lt hidx) ih2]
      omega

theorem runFuel_retry {l l2 : Lexer} (hdone : l.done = false)
    (h : lexStep l = Step.retry l2) {m : ℕ} (hm : 1 ≤ m) :
    runFuel m l = runFuel m l2 := by
  have hdone2 : l2.done = false := by
    rw [(lexStep_retry_spec l l2 h).2.2.1, hdone]
  have hnext : next l = next l2 := by
    simp [next, hdone, hdone2, readToken_retry h]
  rw [runFuel, runFuel, if_neg (by omega), if_neg (by omega), hnext]

theorem runE_runFuel : ∀ (f : ℕ) (l : Lexer) (ts : List Token) (lf : Lexer),
    runE f l = some (ts, lf) → ∀ m, ts.length + 1 ≤ m → runFuel m l = (ts, lf) := by
  intro f
  induction f with
  | zero => intro l ts lf hE; cases hE
  | succ f ih =>
    intro l ts lf hE m hm
    rw [runE] at hE
    split at hE
    · next hdone =>
      injection hE with hE
      injection hE with h1 h2
      subst h1
      subst h2
      exact runFuel_done m l hdone
    · next hdone =>
      have hdone' : l.done = false := by
        cases hd : l.done
        · rfl
        · exact absurd hd hdone
      split at hE
      · next t l2 heq =>
        split at hE
        · next ts' lf' hE2 =>
          injection hE with hE
          injection hE with h1 h2
          subst h2
          have hts : ts = t :: ts' := h1.symm
          subst hts
          have hnext : next l = (some t, l2) := by
            simp [next, hdone', readToken_tok heq]
          have hunf : runFuel m l = (t :: (runFuel (m - 1) l2).1, (runFuel (m - 1) l2).2) := by
            rw [runFuel, if_neg (by omega), hnext]
          have hrec := ih l2 ts' lf' hE2 (m - 1) (by simp at hm; omega)
          rw [hunf, hrec]
        · cases hE
      · next e l2 heq =>
        injection hE with hE
        injection hE with h1 h2
        subst h1
        subst h2
        have hnext : next l = (none, l2) := by
          simp [next, hdone', readToken_tok heq]
        rw [runFuel, if_neg (by omega), hnext]
      · next l2 heq =>
        rw [runFuel_retry hdone' heq (by omega)]
        exact ih l2 ts lf hE m hm

theorem runE_runLexer {s : String} {f : ℕ} {ts : List Token} {lf : Lexer}
    (hE : runE f (Lexer.new s) = some (ts, lf))
    (hlen : ts.length + 1 ≤ s.data.length + 2) :
    runLexer (Lexer.new s) = (ts, lf) := by
  rw [runLexer]
  exact runE_runFuel f (Lexer.new s) ts lf hE _ hlen

theorem digit_ne_punct {c : Char} (hd : c.isDigit = true) :
    ¬c = '(' ∧ ¬c = ')' ∧ ¬c = '\x7b' ∧ ¬c = '\x7d' ∧ ¬c = ';' ∧ ¬c = '*' ∧ ¬c = '.' ∧
    ¬c = ',' ∧ ¬c = '+' ∧ ¬c = '-' ∧ ¬c = '=' ∧ ¬c = '!' ∧ ¬c = '<' ∧ ¬c = '>' ∧
    ¬c = '/' ∧ ¬c = '\"' := by
  refine ⟨?_, ?_, ?_, ?_, ?_, ?_, ?_, ?_, ?_, ?_, ?_, ?_, ?_, ?_, ?_, ?_⟩ <;>
    (intro he; subst he; exact absurd hd (by decide))

theorem identStart_ne_punct {c : Char} (hst : isIdentStart c = true) :
    (¬c = '(' ∧ ¬c = ')' ∧ ¬c = '\x7b' ∧ ¬c = '\x7d' ∧ ¬c = ';' ∧ ¬c = '*' ∧ ¬c = '.' ∧
     ¬c = ',' ∧ ¬c = '+' ∧ ¬c = '-' ∧ ¬c = '=' ∧ ¬c = '!' ∧ ¬c = '<' ∧ ¬c = '>' ∧
     ¬c = '/' ∧ ¬c = '\"') ∧ c.isDigit = false := by
  have hcase : c.isAlpha = true ∨ c = '_' := by
    simp only [isIdentStart, Bool.or_eq_true] at hst
    rcases hst with h | h
    · exact Or.inl h
    · exact Or.inr (by simpa using h)
  constructor
  · refine ⟨?_, ?_, ?_, ?_, ?_, ?_, ?_, ?_, ?_, ?_, ?_, ?_, ?_, ?_, ?_, ?_⟩ <;>
      (intro he; subst he; rcases hcase with h | h
       · exact absurd h (by decide)
       · exact absurd h (by decide))
  · rcases hcase with h | h
    · simp only [Char.isAlpha, Char.isUpper, Char.isLower, Char.isDigit, Bool.or_eq_true,
        Bool.and_eq_true, decide_eq_true_eq, Char.le_def, UInt32.le_def, BitVec.le_def] at h ⊢
      have e1 : ((65 : UInt32).toBitVec).toNat = 65 := by decide
      have e2 : ((90 : UInt32).toBitVec).toNat = 90 := by decide
      have e3 : ((97 : UInt32).toBitVec).toNat = 97 := by decide
      have e4 : ((122 : UInt32).toBitVec).toNat = 122 := by decide
      have e5 : ((48 : UInt32).toBitVec).toNat = 48 := by decide
      have e6 : ((57 : UInt32).toBitVec).toNat = 57 := by decide
      rw [e1, e2, e3, e4] at h
      rw [Bool.and_eq_false_iff]
      simp only [decide_eq_false_iff_not, not_le, Char.le_def, UInt32.le_def, BitVec.le_def,
        e5, e6]
      omega
    · subst h; rfl

theorem lexStep_digit {l : Lexer} {c : Char}
    (hget : l.string[l.index]? = some c) (hd : c.isDigit = true) :
    lexStep l = numberArm { l with index := l.index + 1, column := l.column + 1 }
      (read_number l.string l.index) := by
  obtain ⟨n1, n2, n3, n4, n5, n6, n7, n8, n9, n10, n11, n12, n13, n14, n15, n16⟩ :=
    digit_ne_punct hd
  simp only [lexStep]
  rw [hget]
  simp [n1, n2, n3, n4, n5, n6, n7, n8, n9, n10, n11, n12, n13, n14, n15, n16, hd]

theorem lexStep_identStart {l : Lexer} {c : Char}
    (hget : l.string[l.index]? = some c) (hst : isIdentStart c = true) :
    lexStep l = identArm { l with index := l.index + 1, column := l.column + 1 }
      (read_ident l.string l.index) := by
  obtain ⟨⟨n1, n2, n3, n4, n5, n6, n7, n8, n9, n10, n11, n12, n13, n14, n15, n16⟩, hdig⟩ :=
    identStart_ne_punct hst
  simp only [lexStep]
  rw [hget]
  simp [n1, n2, n3, n4, n5, n6, n7, n8, n9, n10, n11, n12, n13, n14, n15, n16, hdig, hst]

theorem lexStep_quote_some {l : Lexer} {k : ℕ}
    (hget : l.string[l.index]? = some '\"')
    (hss : stringScanLen (l.string.drop (l.index + 1)) = some k) :
    lexStep l = Step.tok
      (Except.ok (Token.Str (String.mk ((l.string.drop (l.index + 1)).take (k - 1)))))
      { l with index := l.index + 1 + k, column := l.column + 1 } := by
  simp only [lexStep]
  rw [hget]
  simp [hss]

theorem lexStep_quote_none {l : Lexer}
    (hget : l.string[l.index]? = some '\"')
    (hss : stringScanLen (l.string.drop (l.index + 1)) = none) :
    lexStep l = Step.retry { l with
      index := l.string.length + 1, column := l.column + 1,
      error := true, errs := l.errs ++ [untermMsg l.line] } := by
  simp only [lexStep]
  rw [hget]
  simp [hss]

theorem lexStep_comment {l : Lexer}
    (hget : l.string[l.index]? = some '/') (hp : l.string[l.index + 1]? = some '/') :
    lexStep l = Step.retry { l with
      index := l.index + 1 + commentLen (l.string.drop (l.index + 1)),
      line := l.line + 1, column := l.column + 1 } := by
  simp only [lexStep]
  rw [hget]
  simp [hp]

theorem lexStep_slash {l : Lexer}
    (hget : l.string[l.index]? = some '/') (hp : ¬l.string[l.index + 1]? = some '/') :
    lexStep l = Step.tok (Except.ok Token.Slash)
      { l with index := l.index + 1, column := l.column + 1 } := by
  simp only [lexStep]
  rw [hget]
  simp [hp]

theorem readToken_digit {l : Lexer} {c : Char} {num : String} {j : ℕ}
    (hget : l.string[l.index]? = some c) (hd : c.isDigit = true)
    (hr : read_number l.string l.index = (some num, j)) :
    ∃ v, parseF64? num = some v ∧
      readToken l = (Except.ok (Token.Number v num),
        { l with index := j, column := l.column + 1 }) := by
  have hsome := read_number_parses hget hd hr
  obtain ⟨v, hv⟩ := Option.isSome_iff_exists.mp hsome
  refine ⟨v, hv, readToken_tok ?_⟩
  rw [lexStep_digit hget hd, hr]
  simp [numberArm, hv]

theorem readToken_identStart {l : Lexer} {c : Char} {s : String} {j : ℕ}
    (hget : l.string[l.index]? = some c) (hst : isIdentStart c = true)
    (hr : read_ident l.string l.index = (some s, j)) :
    readToken l = (Except.ok ((keywordLookup s).getD (Token.Ident s)),
      { l with index := j, column := l.column + 1 }) := by
  apply readToken_tok
  rw [lexStep_identStart hget hst, hr]
  cases hkw : keywordLookup s <;> simp [identArm, hkw]

theorem readToken_string {l : Lexer} {k : ℕ}
    (hget : l.string[l.index]? = some '\"')
    (hss : stringScanLen (l.string.drop (l.index + 1)) = some k) :
    readToken l = (Except.ok
      (Token.Str (String.mk ((l.string.drop (l.index + 1)).take (k - 1)))),
      { l with index := l.index + 1 + k, column := l.column + 1 }) :=
  readToken_tok (lexStep_quote_some hget hss)

theorem readToken_unterm {l : Lexer}
    (hget : l.string[l.index]? = some '\"')
    (hss : stringScanLen (l.string.drop (l.index + 1)) = none) :
    readToken l = (Except.ok Token.EOF, { l with
      index := l.string.length + 2, column := l.column + 1,
      error := true, done := true, errs := l.errs ++ [untermMsg l.line] }) := by
  rw [readToken_retry (lexStep_quote_none hget hss)]
  rw [readToken_atEnd (by simp)]

theorem readToken_comment {l : Lexer}
    (hget : l.string[l.index]? = some '/') (hp : l.string[l.index + 1]? = some '/') :
    readToken l = readToken { l with
      index := l.index + 1 + commentLen (l.string.drop (l.index + 1)),
      line := l.line + 1, column := l.column + 1 } :=
  readToken_retry (lexStep_comment hget hp)

theorem readToken_slash {l : Lexer}
    (hget : l.string[l.index]? = some '/') (hp : ¬l.string[l.index + 1]? = some '/') :
    readToken l = (Except.ok Token.Slash,
      { l with index := l.index + 1, column := l.column + 1 }) :=
  readToken_tok (lexStep_slash hget hp)

theorem runFuelL_done : ∀ (n : ℕ) (l : Lexer), l.done = true → runFuelL n l = [] := by
  intro n l h
  rw [runFuelL]
  split
  · rfl
  · simp [next, h]

theorem runFuelL_retry {l l2 : Lexer} (hdone : l.done = false)
    (h : lexStep l = Step.retry l2) {m : ℕ} (hm : 1 ≤ m) :
    runFuelL m l = runFuelL m l2 := by
  have hdone2 : l2.done = false := by
    rw [(lexStep_retry_spec l l2 h).2.2.1, hdone]
  have hnext : next l = next l2 := by
    simp [next, hdone, hdone2, readToken_retry h]
  rw [runFuelL, runFuelL, if_neg (by omega), if_neg (by omega), hnext]

theorem runEL_runFuelL : ∀ (f : ℕ) (l : Lexer) (ps : List (Token × ℕ)),
    runEL f l = some ps → ∀ m, ps.length + 1 ≤ m → runFuelL m l = ps := by
  intro f
  induction f with
  | zero => intro l ps hE; cases hE
  | succ f ih =>
    intro l ps hE m hm
    rw [runEL] at hE
    split at hE
    · next hdone =>
      injection hE with hE
      subst hE
      exact runFuelL_done m l hdone
    · next hdone =>
      have hdone' : l.done = false := by
        cases hd : l.done
        · rfl
        · exact absurd hd hdone
      split at hE
      · next t l2 heq =>
        split at hE
        · next ps' hE2 =>
          injection hE with hE
          have hps : ps = (t, l2.line) :: ps' := hE.symm
          subst hps
          have hnext : next l = (some t, l2) := by
            simp [next, hdone', readToken_tok heq]
          have hunf : runFuelL m l = (t, l2.line) :: runFuelL (m - 1) l2 := by
            rw [runFuelL, if_neg (by omega), hnext]
          have hrec := ih l2 ps' hE2 (m - 1) (by simp at hm; omega)
          rw [hunf, hrec]
        · cases hE
      · next e l2 heq =>
        injection hE with hE
        subst hE
        have hnext : next l = (none, l2) := by
          simp [next, hdone', readToken_tok heq]
        rw [runFuelL, if_neg (by omega), hnext]
      · next l2 heq =>
        rw [runFuelL_retry hdone' heq (by omega)]
        exact ih l2 ps hE m hm

theorem runEL_tokensWithLines {s : String} {f : ℕ} {ps : List (Token × ℕ)}
    (hE : runEL f (Lexer.new s) = some ps)
    (hlen : ps.length + 1 ≤ s.data.length + 2) :
    tokensWithLines s = ps := by
  rw [tokensWithLines]
  exact runEL_runFuelL f (Lexer.new s) ps hE _ hlen

theorem read_ident_exact {s : List Char} {i : ℕ} {c : Char} (hc : s[i]? = some c)
    (hst : isIdentStart c = true) {lex : String} {j : ℕ}
    (hr : read_ident s i = (some lex, j)) :
    j = i + identLen (s.drop i) := by
  have hpos : identLen (s.drop i) ≠ 0 := identLenPosOfStart s i c hc hst
  have hnle : identLen (s.drop i) ≤ (s.drop i).length := identLen_le_length (s.drop i)
  have hlen : ((s.drop i).take (identLen (s.drop i))).length = identLen (s.drop i) := by
    rw [List.length_take]
    exact Nat.min_eq_left hnle
  have hlast : ∃ d, (s.drop i)[identLen (s.drop i) - 1]? = some d ∧ isIdentChar d = true := by
    have hklt : identLen (s.drop i) - 1 < identLen (s.drop i) := by omega
    have hlt2 : identLen (s.drop i) - 1 < ((s.drop i).take (identLen (s.drop i))).length := by
      omega
    refine ⟨((s.drop i).take (identLen (s.drop i)))[identLen (s.drop i) - 1], ?_, ?_⟩
    · rw [← List.getElem?_eq_getElem hlt2, List.getElem?_take, if_pos hklt]
    · exact List.all_eq_true.mp (identLen_all (s.drop i)) _ (List.getElem_mem hlt2)
  obtain ⟨d, hd, hdc⟩ := hlast
  simp only [read_ident] at hr
  split at hr
  · simp at hr
  · next hcond =>
    split at hr
    · next hdot =>
      exfalso
      rw [show i + identLen (s.drop i) - 1 = i + (identLen (s.drop i) - 1) from by omega,
        ← List.getElem?_drop, hd] at hdot
      have : d = '.' := Option.some_injective _ hdot
      subst this
      exact absurd hdc (by decide)
    · next hdot =>
      injection hr with h1 h2
      omega

/-- Claim C1: for every source input the token stream is finite (a `List`),
its final element is `EOF` with empty lexeme and `null` literal (printed as
the line `EOF  null`), no earlier element is `EOF`, and once `EOF` has been
yielded the iterator's `done` flag is set and every further production call
yields nothing. -/
theorem claim_C1 : ∀ s : String,
    tokens s ≠ [] ∧
    (tokens s).getLast? = some Token.EOF ∧
    Token.EOF ∉ (tokens s).dropLast ∧
    Token.lexeme Token.EOF = "" ∧
    Token.literal Token.EOF = "null" ∧
    Token.display Token.EOF = "EOF  null" ∧
    (lexFinal s).done = true ∧
    next (lexFinal s) = (none, lexFinal s) := by
  intro s
  obtain ⟨ts, lf, hrun, hmem, hdone, hstr, hlen, hle, d, herrs, hd⟩ :=
    runFuel_spec (s.data.length + 2) (Lexer.new s) rfl (by omega)
      (by show s.data.length + 2 ≤ 0 + (s.data.length + 2); omega)
  have hrl : runLexer (Lexer.new s) = (ts ++ [Token.EOF], lf) := hrun
  have h1 : tokens s = ts ++ [Token.EOF] := by rw [tokens, hrl]
  have h2 : lexFinal s = lf := by rw [lexFinal, hrl]
  rw [h1, h2]
  refine ⟨by simp, List.getLast?_concat ts, ?_, rfl, by decide, by decide, hdone, ?_⟩
  · rw [List.dropLast_concat]
    exact hmem
  · simp [next, hdone]

/-- Claim C10: every lexeme the number sub-scanner returns from a digit
position is a valid `f64` literal, so the parse in the digit dispatch arm
never fails; hence `read_token` never returns an `Err` and the iterator
yields `None` exactly when the `done` flag is set (it never terminates early
by discarding a parse failure). -/
theorem claim_C10 :
    (∀ (s : List Char) (i : ℕ) (c : Char), s[i]? = some c → c.isDigit = true →
      ∀ (lex : String) (j : ℕ), read_number s i = (some lex, j) →
        (parseF64? lex).isSome = true) ∧
    (∀ l : Lexer, ∃ t l2, readToken l = (Except.ok t, l2)) ∧
    (∀ l : Lexer, (next l).1 = none ↔ l.done = true) := by
  refine ⟨fun s i c hc hd lex j hr => read_number_parses hc hd hr, fun l => ?_, fun l => ?_⟩
  · obtain ⟨t, l2, h, _⟩ := readToken_spec l
    exact ⟨t, l2, h⟩
  · by_cases hdone : l.done = true
    · simp [next, hdone]
    · have hdone' : l.done = false := by
        cases hdd : l.done
        · rfl
        · exact absurd hdd hdone
      obtain ⟨t, l2, h, _⟩ := readToken_spec l
      simp [next, hdone', h]

/-- Witness for C10 at concrete inputs: the single digit `7` lexes to a
parseable lexeme, `read_token` succeeds on `x`, and the exhausted iterator
equivalence holds for the empty source. -/
theorem claim_C10_witness :
    (parseF64? ("7")).isSome = true ∧
    (∃ t l2, readToken (Lexer.new ("x")) = (Except.ok t, l2)) ∧
    ((next (Lexer.new (""))).1 = none ↔ (Lexer.new ("")).done = true) :=
  ⟨claim_C10.1 (("7" : String).data) 0 '7' (by decide) (by decide) "7" 1 (by decide),
   claim_C10.2.1 (Lexer.new ("x")), claim_C10.2.2 (Lexer.new (""))⟩

/-- Claim C2: from any digit position the scanner emits one `NUMBER` token
whose lexeme is the matched text (the maximal digit run with at most one
interior `.` followed by a digit, a trailing `.` being backed off) and whose
literal equals the double-precision parse of that lexeme; on input `123.`
this yields `NUMBER 123 123.0` followed by `DOT . null`. -/
theorem claim_C2 :
    (∀ (l : Lexer) (c : Char), l.string[l.index]? = some c → c.isDigit = true →
      ∀ (num : String) (j : ℕ), read_number l.string l.index = (some num, j) →
        ∃ v, parseF64? num = some v ∧
          readToken l = (Except.ok (Token.Number v num),
            { l with index := j, column := l.column + 1 }) ∧
          num = String.mk ((l.string.drop l.index).take (j - l.index)) ∧
          Token.lexeme (Token.Number v num) = num ∧
          l.index < j ∧ j ≤ l.index + numLen (l.string.drop l.index) false) ∧
    tokens ("123.") = [Token.Number ((123 : ℕ) : ℚ) "123", Token.Dot, Token.EOF] ∧
    outputLines ("123.") = ["NUMBER 123 123.0", "DOT . null", "EOF  null"] := by
  have hrl := @runE_runLexer ("123.") 20
    [Token.Number ((123 : ℕ) : ℚ) "123", Token.Dot, Token.EOF]
    { string := ("123." : String).data, index := 5, line := 1, column := 2,
      error := false, done := true, errs := [] }
    (by decide) (by decide)
  have htok : tokens ("123.") = [Token.Number ((123 : ℕ) : ℚ) "123", Token.Dot, Token.EOF] := by
    rw [tokens, hrl]
  refine ⟨?_, htok, ?_⟩
  · intro l c hget hd num j hr
    obtain ⟨v, hv, hrt⟩ := readToken_digit hget hd hr
    have hb := read_number_bounds hget hd hr
    exact ⟨v, hv, hrt, hb.2.2, rfl, hb.1, hb.2.1⟩
  · rw [outputLines, htok]
    decide

/-- Witness for C2: the general part applied at the start of the source
`7x`, whose digit run is the single character `7`. -/
theorem claim_C2_witness :
    ∃ v, parseF64? ("7") = some v ∧
      readToken (Lexer.new ("7x")) = (Except.ok (Token.Number v ("7")),
        { Lexer.new ("7x") with index := 1, column := (Lexer.new ("7x")).column + 1 }) ∧
      ("7" : String) = String.mk ((((Lexer.new ("7x")).string).drop
        (Lexer.new ("7x")).index).take (1 - (Lexer.new ("7x")).index)) ∧
      Token.lexeme (Token.Number v ("7")) = "7" ∧
      (Lexer.new ("7x")).index < 1 ∧
      1 ≤ (Lexer.new ("7x")).index +
        numLen (((Lexer.new ("7x")).string).drop (Lexer.new ("7x")).index) false :=
  claim_C2.1 (Lexer.new ("7x")) '7' (by decide) (by decide) "7" 1 (by decide)

theorem countNL_full {s : List Char} {j : ℕ} (hj : s.length ≤ j) :
    countNL s 0 j = s.count '\n' := by
  rw [countNL, List.drop_zero, Nat.sub_zero, List.take_of_length_le hj]

/-- Counterexample to claim C3 as stated: on the source `//` (a `//` comment
running to end of input) the scanner consumes no `'\n'` at all, yet the final
line counter is 2, not 1 — the comment arm increments `line` even when the
comment is terminated by end of input rather than by a newline. -/
theorem claim_C3_counterexample :
    ("//" : String).data.count '\n' = 0 ∧
    (lexFinal ("//")).line = 2 ∧
    ¬((lexFinal ("//")).line = 1 + ("//" : String).data.count '\n') := by
  have hrl := @runE_runLexer ("//") 10 [Token.EOF]
    { string := ("//" : String).data, index := 4, line := 2, column := 1,
      error := false, done := true, errs := [] } (by decide) (by decide)
  have h2 : lexFinal ("//") =
      { string := ("//" : String).data, index := 4, line := 2, column := 1,
        error := false, done := true, errs := [] } := by
    rw [lexFinal, hrl]
  rw [h2]
  exact ⟨by decide, rfl, by decide⟩

/-- Claim C3, amended: for sources containing no `/` and no `"` the line
counter equals 1 plus the number of `'\n'` characters consumed so far after
any number of production calls, and equals 1 plus the total newline count of
the source once the stream is exhausted; a successfully scanned string
literal never changes the line counter, even when its body spans newlines
(and, per the counterexample, a `//` comment reaching end of input
increments the counter once without any newline being consumed). -/
theorem claim_C3 :
    (∀ (s : String) (n : ℕ), noSlashQuote s.data →
      (runFuel n (Lexer.new s)).2.line =
        1 + countNL s.data 0 (runFuel n (Lexer.new s)).2.index) ∧
    (∀ s : String, noSlashQuote s.data → (lexFinal s).line = 1 + s.data.count '\n') ∧
    (∀ (l : Lexer) (k : ℕ), l.string[l.index]? = some '\"' →
      stringScanLen (l.string.drop (l.index + 1)) = some k →
      (readToken l).2.line = l.line) := by
  refine ⟨?_, ?_, ?_⟩
  · intro s n hno
    have h := (runFuel_line n (Lexer.new s) hno).1
    simpa [Lexer.new] using h
  · intro s hno
    obtain ⟨ts, lf, hrun, hmem, hdone, hstr, hlen, hle, d, herrs, hd⟩ :=
      runFuel_spec (s.data.length + 2) (Lexer.new s) rfl (by omega)
        (by show s.data.length + 2 ≤ 0 + (s.data.length + 2); omega)
    have h := (runFuel_line (s.data.length + 2) (Lexer.new s) hno).1
    have hl2 : (runFuel (s.data.length + 2) (Lexer.new s)).2 = lf := by rw [hrun]
    have hfin : lexFinal s = lf := by
      rw [lexFinal, runLexer]
      show (runFuel (s.data.length + 2) (Lexer.new s)).2 = lf
      exact hl2
    rw [hl2] at h
    rw [hfin, h]
    have hlen2 : s.data.length ≤ lf.index := le_of_lt hlen
    have hcnt : countNL (Lexer.new s).string (Lexer.new s).index lf.index =
        s.data.count '\n' := countNL_full hlen2
    rw [hcnt]
    rfl
  · intro l k hget hss
    rw [readToken_string hget hss]

/-- Witness for C3 (amended): the two-line slash-free, quote-free source
`a\nb` ends with the line counter at 2, and scanning the string literal
`"x"` leaves the line counter unchanged. -/
theorem claim_C3_witness :
    (lexFinal ("a\nb")).line = 1 + ("a\nb" : String).data.count '\n' ∧
    (readToken (Lexer.new ("\"x\""))).2.line = (Lexer.new ("\"x\"")).line :=
  ⟨claim_C3.2.1 ("a\nb") ⟨by decide, by decide⟩,
   claim_C3.2.2 (Lexer.new ("\"x\"")) 2 (by decide) (by decide)⟩

theorem untermMsg_last (n : ℕ) : (untermMsg n).data.getLast? = some '.' := by
  rw [untermMsg, String.data_append, String.data_append, List.getLast?_append]
  have hC : ("] Error: Unterminated string." : String).data.getLast? = some '.' := by decide
  rw [hC]
  rfl

theorem unexpMsg_last (n : ℕ) (c : Char) : (unexpMsg n c).data.getLast? = some c := by
  rw [unexpMsg, String.data_append, String.data_append, String.data_append,
    List.getLast?_append]
  have hC : (String.singleton c).data.getLast? = some c := rfl
  rw [hC]
  rfl

theorem lexFinal_errs_shape (s : String) : ∀ e ∈ (lexFinal s).errs, diagShape e := by
  obtain ⟨ts, lf, hrun, _, _, _, _, _, d, herrs, hd⟩ :=
    runFuel_spec (s.data.length + 2) (Lexer.new s) rfl (by omega)
      (by show s.data.length + 2 ≤ 0 + (s.data.length + 2); omega)
  have hfin : lexFinal s = lf := by
    rw [lexFinal, runLexer]
    show (runFuel (s.data.length + 2) (Lexer.new s)).2 = lf
    rw [hrun]
  rw [hfin, herrs]
  simpa [Lexer.new] using hd

/-- Counterexample to claim C4 as stated: the unexpected-character diagnostic
does not end with a period — on the source `@` the scanner records exactly the
diagnostic `[line 1] Error: Unexpected character: @`, whose last character is
`@`, so not every diagnostic follows the pattern `[line <n>] Error: <message>.`
with a trailing period. -/
theorem claim_C4_counterexample :
    (lexFinal ("@")).errs = ["[line 1] Error: Unexpected character: @"] ∧
    ¬(∀ e ∈ (lexFinal ("@")).errs, e.data.getLast? = some '.') := by
  have hrl := @runE_runLexer ("@") 10 [Token.EOF]
    { string := ("@" : String).data, index := 2, line := 1, column := 1,
      error := true, done := true,
      errs := ["[line 1] Error: Unexpected character: @"] } (by decide) (by decide)
  have h2 : lexFinal ("@") =
      { string := ("@" : String).data, index := 2, line := 1, column := 1,
        error := true, done := true,
        errs := ["[line 1] Error: Unexpected character: @"] } := by
    rw [lexFinal, hrl]
  rw [h2]
  exact ⟨rfl, by decide⟩

/-- Claim C4, amended: every diagnostic the scanner records is one of the two
messages `[line <n>] Error: Unterminated string.` or
`[line <n>] Error: Unexpected character: <char>`; the unterminated-string
diagnostic ends with a period, but the unexpected-character diagnostic ends
with the offending character itself and carries no trailing period (the
source format string has none). -/
theorem claim_C4 :
    (∀ (s : String) (e : String), e ∈ (lexFinal s).errs → diagShape e) ∧
    (∀ n : ℕ, (untermMsg n).data.getLast? = some '.') ∧
    (∀ (n : ℕ) (c : Char), (unexpMsg n c).data.getLast? = some c) := by
  refine ⟨?_, untermMsg_last, unexpMsg_last⟩
  intro s
  exact lexFinal_errs_shape s

/-- Witness for C4 (amended): the one diagnostic produced by the source `@`
has the claimed shape, and the two message builders end with a period and
with the offending character respectively at concrete arguments. -/
theorem claim_C4_witness :
    diagShape ("[line 1] Error: Unexpected character: @") ∧
    (untermMsg 1).data.getLast? = some '.' ∧
    (unexpMsg 1 '@').data.getLast? = some '@' := by
  have hrl := @runE_runLexer ("@") 10 [Token.EOF]
    { string := ("@" : String).data, index := 2, line := 1, column := 1,
      error := true, done := true,
      errs := ["[line 1] Error: Unexpected character: @"] } (by decide) (by decide)
  have hmem : ("[line 1] Error: Unexpected character: @" : String) ∈ (lexFinal ("@")).errs := by
    rw [lexFinal, hrl]
    exact List.mem_singleton.mpr rfl
  exact ⟨claim_C4.1 ("@") _ hmem, claim_C4.2.1 1, claim_C4.2.2 1 '@'⟩

/-- Counterexample to claim C5 as stated: the `Token` value does not carry its
source line.  On the source `+`, newline, `+` the scanner produces the same
token value `Token.Plus` once on line 1 and once on line 2, so no function of
the token value alone can recover the source line of a token. -/
theorem claim_C5_counterexample :
    tokensWithLines ("+\n+") = [(Token.Plus, 1), (Token.Plus, 2), (Token.EOF, 2)] ∧
    ¬∃ f : Token → ℕ, ∀ p ∈ tokensWithLines ("+\n+"), f p.1 = p.2 := by
  have ht : tokensWithLines ("+\n+") = [(Token.Plus, 1), (Token.Plus, 2), (Token.EOF, 2)] :=
    @runEL_tokensWithLines ("+\n+") 10 [(Token.Plus, 1), (Token.Plus, 2), (Token.EOF, 2)]
      (by decide) (by decide)
  refine ⟨ht, ?_⟩
  rintro ⟨f, hf⟩
  have h1 := hf (Token.Plus, 1) (by rw [ht]; simp)
  have h2 := hf (Token.Plus, 2) (by rw [ht]; simp)
  simp only at h1 h2
  omega

/-- Claim C5, amended: every token carries its type, lexeme and literal value
(its canonical printed form `TYPE lexeme literal` is a function of the token
value alone), but not the source line on which it occurred: the `Token` type
has no line field, and no function of the token value can recover the
production line, as the same token value is produced on different lines. -/
theorem claim_C5 :
    (∀ t : Token, Token.display t =
      Token.token_type t ++ " " ++ Token.lexeme t ++ " " ++ Token.literal t) ∧
    ¬∃ f : Token → ℕ, ∀ (s : String), ∀ p ∈ tokensWithLines s, f p.1 = p.2 := by
  refine ⟨fun t => rfl, ?_⟩
  rintro ⟨f, hf⟩
  have ht : tokensWithLines ("+\n+") = [(Token.Plus, 1), (Token.Plus, 2), (Token.EOF, 2)] :=
    @runEL_tokensWithLines ("+\n+") 11 [(Token.Plus, 1), (Token.Plus, 2), (Token.EOF, 2)]
      (by decide) (by decide)
  have h1 := hf ("+\n+") (Token.Plus, 1) (by rw [ht]; simp)
  have h2 := hf ("+\n+") (Token.Plus, 2) (by rw [ht]; simp)
  simp only at h1 h2
  omega

/-- Witness for C5 (amended): the printed form of `Token.Plus` is assembled
from its type, lexeme and literal. -/
theorem claim_C5_witness :
    Token.display Token.Plus =
      Token.token_type Token.Plus ++ " " ++ Token.lexeme Token.Plus ++ " " ++
        Token.literal Token.Plus :=
  claim_C5.1 Token.Plus

/-- Claim C6: reading a `"` with no closing quote before end of input records
one unterminated-string diagnostic tagged with the line on which the string
began, sets the cumulative error flag, and produces no content token for the
attempt (the call returns the `EOF` marker after consuming the rest of the
input); on the input `"unterminated` the whole run yields error flag true,
the single diagnostic `[line 1] Error: Unterminated string.`, the token
stream `[EOF]`, and `EOF  null` as the only output line. -/
theorem claim_C6 :
    (∀ l : Lexer, l.string[l.index]? = some '\"' →
      stringScanLen (l.string.drop (l.index + 1)) = none →
      readToken l = (Except.ok Token.EOF, { l with
        index := l.string.length + 2, column := l.column + 1,
        error := true, done := true, errs := l.errs ++ [untermMsg l.line] })) ∧
    tokens ("\"unterminated") = [Token.EOF] ∧
    (lexFinal ("\"unterminated")).error = true ∧
    (lexFinal ("\"unterminated")).errs = ["[line 1] Error: Unterminated string."] ∧
    outputLines ("\"unterminated") = ["EOF  null"] := by
  have hrl := @runE_runLexer ("\"unterminated") 20 [Token.EOF]
    { string := ("\"unterminated" : String).data, index := 15, line := 1, column := 1,
      error := true, done := true,
      errs := ["[line 1] Error: Unterminated string."] } (by decide) (by decide)
  have htok : tokens ("\"unterminated") = [Token.EOF] := by
    rw [tokens, hrl]
  have hfin : lexFinal ("\"unterminated") =
      { string := ("\"unterminated" : String).data, index := 15, line := 1, column := 1,
        error := true, done := true,
        errs := ["[line 1] Error: Unterminated string."] } := by
    rw [lexFinal, hrl]
  refine ⟨fun l hget hss => readToken_unterm hget hss, htok, ?_, ?_, ?_⟩
  · rw [hfin]
  · rw [hfin]
  · rw [outputLines, htok]
    decide

/-- Witness for C6: the unterminated-string clause applied to the concrete
scanner state at the start of the input `"ab`. -/
theorem claim_C6_witness :
    readToken (Lexer.new ("\"ab")) = (Except.ok Token.EOF, { Lexer.new ("\"ab") with
      index := (Lexer.new ("\"ab")).string.length + 2,
      column := (Lexer.new ("\"ab")).column + 1,
      error := true, done := true,
      errs := (Lexer.new ("\"ab")).errs ++ [untermMsg (Lexer.new ("\"ab")).line] }) :=
  claim_C6.1 (Lexer.new ("\"ab")) (by decide) (by decide)

/-- Claim C7: scanning a terminated string literal yields a `STRING` token
whose literal is the exact text strictly between the quotes (no escape
processing) and whose lexeme is that body wrapped in quotes; the body
contains no `"` and the scan stops at the first closing `"`.  On the input
`"abc"` the run yields the token `STRING "abc" abc`. -/
theorem claim_C7 :
    (∀ (l : Lexer) (k : ℕ), l.string[l.index]? = some '\"' →
      stringScanLen (l.string.drop (l.index + 1)) = some k →
      ∃ body : List Char,
        body = (l.string.drop (l.index + 1)).take (k - 1) ∧
        readToken l = (Except.ok (Token.Str (String.mk body)),
          { l with index := l.index + 1 + k, column := l.column + 1 }) ∧
        (∀ m, m < body.length → body[m]? ≠ some '\"') ∧
        (l.string.drop (l.index + 1))[k - 1]? = some '\"' ∧
        Token.lexeme (Token.Str (String.mk body)) = "\"" ++ String.mk body ++ "\"" ∧
        Token.literal (Token.Str (String.mk body)) = String.mk body) ∧
    tokens ("\"abc\"") = [Token.Str ("abc"), Token.EOF] ∧
    outputLines ("\"abc\"") = ["STRING \"abc\" abc", "EOF  null"] := by
  have hrl := @runE_runLexer ("\"abc\"") 20 [Token.Str ("abc"), Token.EOF]
    { string := ("\"abc\"" : String).data, index := 6, line := 1, column := 1,
      error := false, done := true, errs := [] } (by decide) (by decide)
  have htok : tokens ("\"abc\"") = [Token.Str ("abc"), Token.EOF] := by
    rw [tokens, hrl]
  refine ⟨?_, htok, by rw [outputLines, htok]; decide⟩
  intro l k hget hss
  refine ⟨(l.string.drop (l.index + 1)).take (k - 1), rfl,
    readToken_string hget hss, ?_, stringScanLen_last _ hss, rfl, rfl⟩
  intro m hm hq
  have hmk : m < k - 1 := by
    have := List.length_take_le (k - 1) (l.string.drop (l.index + 1))
    omega
  rw [List.getElem?_take_of_lt hmk] at hq
  exact stringScanLen_body _ hss (by omega) hq

/-- Witness for C7: the general clause applied to the scanner state at the
start of the input `"x"` (here the known scan length is `k = 2`). -/
theorem claim_C7_witness :
    ∃ body : List Char,
      body = ((Lexer.new ("\"x\"")).string.drop ((Lexer.new ("\"x\"")).index + 1)).take (2 - 1) ∧
      readToken (Lexer.new ("\"x\"")) = (Except.ok (Token.Str (String.mk body)),
        { Lexer.new ("\"x\"") with
          index := (Lexer.new ("\"x\"")).index + 1 + 2,
          column := (Lexer.new ("\"x\"")).column + 1 }) ∧
      (∀ m, m < body.length → body[m]? ≠ some '\"') ∧
      ((Lexer.new ("\"x\"")).string.drop ((Lexer.new ("\"x\"")).index + 1))[2 - 1]? =
        some '\"' ∧
      Token.lexeme (Token.Str (String.mk body)) = "\"" ++ String.mk body ++ "\"" ∧
      Token.literal (Token.Str (String.mk body)) = String.mk body :=
  claim_C7.1 (Lexer.new ("\"x\"")) 2 (by decide) (by decide)

/-- Claim C8: from an identifier-start character the scanner consumes the
maximal run of ASCII letters, digits and underscores (every consumed
character is an identifier character and the first unconsumed one, if any,
is not), looks the spelling up in the keyword table by exact case-sensitive
match, and yields the reserved-word token on a hit and `Ident` with the
spelling otherwise; `var` yields the `VAR` token printing `VAR var null`
while `Var` and `foo` are ordinary identifiers. -/
theorem claim_C8 :
    (∀ (l : Lexer) (c : Char) (s : String) (j : ℕ),
      l.string[l.index]? = some c → isIdentStart c = true →
      read_ident l.string l.index = (some s, j) →
      readToken l = (Except.ok ((keywordLookup s).getD (Token.Ident s)),
        { l with index := j, column := l.column + 1 }) ∧
      j = l.index + identLen (l.string.drop l.index) ∧
      s = String.mk ((l.string.drop l.index).take (identLen (l.string.drop l.index))) ∧
      ((l.string.drop l.index).take (identLen (l.string.drop l.index))).all
        isIdentChar = true ∧
      (∀ c2, (l.string.drop l.index)[identLen (l.string.drop l.index)]? = some c2 →
        isIdentChar c2 = false)) ∧
    (∀ (s : String) (kw : Token), keywordLookup s = some kw → (s, kw) ∈ KEYWORDS) ∧
    keywordLookup ("var") = some Token.Var ∧
    keywordLookup ("Var") = none ∧
    tokens ("var") = [Token.Var, Token.EOF] ∧
    Token.display Token.Var = "VAR var null" ∧
    tokens ("foo") = [Token.Ident ("foo"), Token.EOF] := by
  have hrv := @runE_runLexer ("var") 20 [Token.Var, Token.EOF]
    { string := ("var" : String).data, index := 4, line := 1, column := 1,
      error := false, done := true, errs := [] } (by decide) (by decide)
  have hrf := @runE_runLexer ("foo") 20 [Token.Ident ("foo"), Token.EOF]
    { string := ("foo" : String).data, index := 4, line := 1, column := 1,
      error := false, done := true, errs := [] } (by decide) (by decide)
  refine ⟨?_, ?_, by decide, by decide, by rw [tokens, hrv], by decide, by rw [tokens, hrf]⟩
  · intro l c s j hget hst hr
    have hex := read_ident_exact hget hst hr
    obtain ⟨hij, hle, hlex⟩ := read_ident_bounds hget hst hr
    refine ⟨readToken_identStart hget hst hr, hex, ?_, identLen_all _, ?_⟩
    · rw [hlex, hex]
      have hcancel : l.index + identLen (l.string.drop l.index) - l.index =
          identLen (l.string.drop l.index) := by omega
      rw [hcancel]
    · intro c2 hc2
      exact identLen_next _ hc2
  · intro s kw hkw
    rw [keywordLookup] at hkw
    obtain ⟨⟨ps, pt⟩, hp, hpk⟩ := Option.map_eq_some'.mp hkw
    have hmem := List.mem_of_find?_eq_some hp
    have hpred := List.find?_some hp
    simp at hpred hpk
    rw [← hpred, ← hpk]
    exact hmem

/-- Witness for C8: the general identifier clause applied to the input `var`
(identifier run of length 3, resolved through the keyword table to `VAR`). -/
theorem claim_C8_witness :
    readToken (Lexer.new ("var")) =
      (Except.ok ((keywordLookup ("var")).getD (Token.Ident ("var"))),
        { Lexer.new ("var") with index := 3, column := (Lexer.new ("var")).column + 1 }) ∧
    3 = (Lexer.new ("var")).index +
      identLen ((Lexer.new ("var")).string.drop (Lexer.new ("var")).index) ∧
    ("var" : String) = String.mk (((Lexer.new ("var")).string.drop (Lexer.new ("var")).index).take
      (identLen ((Lexer.new ("var")).string.drop (Lexer.new ("var")).index))) ∧
    (((Lexer.new ("var")).string.drop (Lexer.new ("var")).index).take
      (identLen ((Lexer.new ("var")).string.drop (Lexer.new ("var")).index))).all
        isIdentChar = true ∧
    (∀ c2, ((Lexer.new ("var")).string.drop (Lexer.new ("var")).index)[identLen
        ((Lexer.new ("var")).string.drop (Lexer.new ("var")).index)]? = some c2 →
      isIdentChar c2 = false) :=
  claim_C8.1 (Lexer.new ("var")) 'v' ("var") 3 (by decide) (by decide) (by decide)

/-- Claim C9: on `//` the scanner produces no token for the comment and
resumes scanning after it: every character of the comment body before its
last consumed position is not a newline, and the consumed run either ends at
the first newline or runs to end of input; the net line-number effect is the
single increment accounted to that newline.  A lone `/` yields `SLASH`.  On
`//x` newline `+` the run yields exactly `[PLUS, EOF]` with final line 2,
and on `/` it yields `[SLASH, EOF]`. -/
theorem claim_C9 :
    (∀ l : Lexer, l.string[l.index]? = some '/' → l.string[l.index + 1]? = some '/' →
      readToken l = readToken { l with
        index := l.index + 1 + commentLen (l.string.drop (l.index + 1)),
        line := l.line + 1, column := l.column + 1 } ∧
      (∀ m, m + 1 < commentLen (l.string.drop (l.index + 1)) →
        (l.string.drop (l.index + 1))[m]? ≠ some '\n') ∧
      ((l.string.drop (l.index + 1))[commentLen (l.string.drop (l.index + 1)) - 1]? =
          some '\n' ∨
        commentLen (l.string.drop (l.index + 1)) = (l.string.drop (l.index + 1)).length + 1)) ∧
    (∀ l : Lexer, l.string[l.index]? = some '/' → ¬l.string[l.index + 1]? = some '/' →
      readToken l = (Except.ok Token.Slash,
        { l with index := l.index + 1, column := l.column + 1 })) ∧
    tokens ("//x\n+") = [Token.Plus, Token.EOF] ∧
    (lexFinal ("//x\n+")).line = 2 ∧
    tokens ("/") = [Token.Slash, Token.EOF] := by
  have hrc := @runE_runLexer ("//x\n+") 20 [Token.Plus, Token.EOF]
    { string := ("//x\n+" : String).data, index := 6, line := 2, column := 2,
      error := false, done := true, errs := [] } (by decide) (by decide)
  have hrs := @runE_runLexer ("/") 20 [Token.Slash, Token.EOF]
    { string := ("/" : String).data, index := 2, line := 1, column := 1,
      error := false, done := true, errs := [] } (by decide) (by decide)
  refine ⟨?_, fun l hget hp => readToken_slash hget hp, by rw [tokens, hrc], ?_,
    by rw [tokens, hrs]⟩
  · intro l hget hp
    exact ⟨readToken_comment hget hp, fun m hm => commentLen_body _ hm, commentLen_last _⟩
  · rw [lexFinal, hrc]

/-- Witness for C9: the comment clause applied to the start of `//x` newline
`+`, and the lone-slash clause applied to the one-character input `/`. -/
theorem claim_C9_witness :
    (readToken (Lexer.new ("//x\n+")) = readToken { Lexer.new ("//x\n+") with
        index := (Lexer.new ("//x\n+")).index + 1 +
          commentLen ((Lexer.new ("//x\n+")).string.drop ((Lexer.new ("//x\n+")).index + 1)),
        line := (Lexer.new ("//x\n+")).line + 1,
        column := (Lexer.new ("//x\n+")).column + 1 } ∧
      (∀ m, m + 1 < commentLen ((Lexer.new ("//x\n+")).string.drop
          ((Lexer.new ("//x\n+")).index + 1)) →
        ((Lexer.new ("//x\n+")).string.drop ((Lexer.new ("//x\n+")).index + 1))[m]? ≠
          some '\n') ∧
      (((Lexer.new ("//x\n+")).string.drop ((Lexer.new ("//x\n+")).index + 1))[commentLen
          ((Lexer.new ("//x\n+")).string.drop ((Lexer.new ("//x\n+")).index + 1)) - 1]? =
          some '\n' ∨
        commentLen ((Lexer.new ("//x\n+")).string.drop ((Lexer.new ("//x\n+")).index + 1)) =
          ((Lexer.new ("//x\n+")).string.drop ((Lexer.new ("//x\n+")).index + 1)).length + 1)) ∧
    readToken (Lexer.new ("/")) = (Except.ok Token.Slash,
      { Lexer.new ("/") with
        index := (Lexer.new ("/")).index + 1,
        column := (Lexer.new ("/")).column + 1 }) :=
  ⟨claim_C9.1 (Lexer.new ("//x\n+")) (by decide) (by decide),
   claim_C9.2.1 (Lexer.new ("/")) (by decide) (by decide)⟩
